import Mathlib

/-!
Verification of the DocDB document-over-KV storage layer and the YQL INSERT
semantic analyzer of this repository.

The repository provides two source files: `src/yb/docdb/docdb.h`, which
declares the DocDB interfaces (DocWriteBatch, PrepareDocWriteTransaction,
ScanSubDocument/GetSubDocument, DocVisitor), and
`src/yb/sql/ptree/pt_insert.cc`, which implements `PTInsertStmt::Analyze`.
The implementations of the key encoder, value encoder, DocKey/SubDocKey
codec, reader, lock planner and write-batch builder are not part of the
extracted sources, so those components are modelled from the specification
(each such definition's doc comment starts with `Modelled from the spec:`).
`PTInsertStmt::Analyze` is embedded directly from the source.
-/

namespace DocDBSpec

/-! ### Bytewise comparison of byte sequences

Byte sequences are modelled as `List Nat` with each element below 256.
`bytesLT` is strict bytewise lexicographic comparison, the comparison the
ordered KV store applies to encoded keys. -/

/-- Strict bytewise (shortlex within equal positions) comparison, exactly the
comparator an ordered byte-string store uses: a proper leading portion of a
key sorts before the longer key. -/
def bytesLT : List Nat → List Nat → Bool
  | _, [] => false
  | [], _ :: _ => true
  | a :: as, b :: bs => if a < b then true else if b < a then false else bytesLT as bs

theorem bytesLT_irrefl (l : List Nat) : bytesLT l l = false := by
  induction l with
  | nil => rfl
  | cons a as ih => simp [bytesLT, ih]

theorem bytesLT_append_same (x u v : List Nat) :
    bytesLT (x ++ u) (x ++ v) = bytesLT u v := by
  induction x with
  | nil => rfl
  | cons a as ih => simp [bytesLT, ih]

theorem bytesLT_cons_ne (a b : Nat) (u v : List Nat) (h : a ≠ b) :
    bytesLT (a :: u) (b :: v) = decide (a < b) := by
  rcases Nat.lt_trichotomy a b with hlt | heq | hgt
  · simp [bytesLT, hlt]
  · exact absurd heq h
  · simp [bytesLT, hgt, Nat.lt_asymm hgt, Nat.not_lt.mpr (Nat.le_of_lt hgt)]

theorem bytesLT_trichotomy (u v : List Nat) :
    u = v ∨ bytesLT u v = true ∨ bytesLT v u = true := by
  induction u generalizing v with
  | nil => cases v with
    | nil => exact Or.inl rfl
    | cons b bs => exact Or.inr (Or.inl rfl)
  | cons a as ih =>
    cases v with
    | nil => exact Or.inr (Or.inr rfl)
    | cons b bs =>
      rcases Nat.lt_trichotomy a b with hlt | heq | hgt
      · exact Or.inr (Or.inl (by simp [bytesLT, hlt]))
      · subst heq
        rcases ih bs with h | h | h
        · exact Or.inl (by rw [h])
        · exact Or.inr (Or.inl (by simp [bytesLT, h]))
        · exact Or.inr (Or.inr (by simp [bytesLT, h]))
      · exact Or.inr (Or.inr (by simp [bytesLT, hgt]))

/-! ### Fixed-width big-endian encoding of unsigned integers -/

/-- Big-endian byte sequence of width `n` for the natural number `k`
(meaningful when `k < 2^(8*n)`). -/
def beBytes : Nat → Nat → List Nat
  | 0, _ => []
  | n + 1, k => k / 2 ^ (8 * n) :: beBytes n (k % 2 ^ (8 * n))

/-- Value of a big-endian byte sequence. -/
def fromBE : List Nat → Nat
  | [] => 0
  | b :: bs => b * 2 ^ (8 * bs.length) + fromBE bs

theorem beBytes_length (n k : Nat) : (beBytes n k).length = n := by
  induction n generalizing k with
  | zero => rfl
  | succ m ih => simp [beBytes, ih]

theorem fromBE_beBytes (n k : Nat) (h : k < 2 ^ (8 * n)) :
    fromBE (beBytes n k) = k := by
  induction n generalizing k with
  | zero =>
    have hk : k = 0 := by simpa using h
    simp [beBytes, fromBE, hk]
  | succ m ih =>
    have hpos : 0 < 2 ^ (8 * m) := Nat.pos_pow_of_pos _ (by norm_num)
    simp only [beBytes, fromBE, beBytes_length]
    rw [ih _ (Nat.mod_lt _ hpos), Nat.mul_comm]
    exact Nat.div_add_mod k (2 ^ (8 * m))

theorem div_lt_div_imp_lt (k1 k2 E : Nat) (h : k1 / E < k2 / E) : k1 < k2 := by
  by_contra hc
  exact absurd (Nat.div_le_div_right (Nat.le_of_not_lt hc)) (Nat.not_le.mpr h)

/-- Bytewise comparison of equal-width big-endian encodings, with arbitrary
continuations, matches numeric comparison. -/
theorem beBytes_lt (n : Nat) (k1 k2 : Nat) (h1 : k1 < 2 ^ (8 * n)) (h2 : k2 < 2 ^ (8 * n))
    (u v : List Nat) :
    bytesLT (beBytes n k1 ++ u) (beBytes n k2 ++ v) =
      if k1 = k2 then bytesLT u v else decide (k1 < k2) := by
  induction n generalizing k1 k2 u v with
  | zero =>
    have hk1 : k1 = 0 := by simpa using h1
    have hk2 : k2 = 0 := by simpa using h2
    subst hk1; subst hk2
    simp [beBytes]
  | succ m ih =>
    have hpos : 0 < 2 ^ (8 * m) := Nat.pos_pow_of_pos _ (by norm_num)
    set E := 2 ^ (8 * m) with hE
    simp only [beBytes, List.cons_append]
    rcases Nat.lt_trichotomy (k1 / E) (k2 / E) with hlt | heq | hgt
    · have hk : k1 < k2 := div_lt_div_imp_lt _ _ _ hlt
      simp [bytesLT, hlt, hk, Nat.ne_of_lt hk]
    · rw [heq]
      simp only [bytesLT, Nat.lt_irrefl, if_false]
      rw [ih _ _ (Nat.mod_lt _ hpos) (Nat.mod_lt _ hpos)]
      have hd1 := Nat.div_add_mod k1 E
      have hd2 := Nat.div_add_mod k2 E
      rw [← heq] at hd2
      have hiff : k1 % E = k2 % E ↔ k1 = k2 := by omega
      by_cases hm : k1 % E = k2 % E
      · simp [hm, hiff.mp hm]
      · have hne : k1 ≠ k2 := fun hc => hm (hiff.mpr hc)
        have hlti : (k1 % E < k2 % E) = (k1 < k2) := by
          apply propext; omega
        simp [hm, hne, hlti]
    · have hk : k2 < k1 := div_lt_div_imp_lt _ _ _ hgt
      have h1' : ¬ k1 / E < k2 / E := Nat.lt_asymm hgt
      simp [bytesLT, hgt, h1', Nat.ne_of_gt hk, Nat.lt_asymm hk]

/-! ### Zero-encoding of strings -/

/-- Modelled from the spec: KeyEncoder string payload (§4.1): bytes copied
verbatim except any `0x00` is replaced by `0x00 0x01`; the terminator
`0x00 0x00` is appended by the caller. -/
def zeroEnc : List Nat → List Nat
  | [] => []
  | c :: s => if c = 0 then 0 :: 1 :: zeroEnc s else c :: zeroEnc s

/-- Bytewise comparison of two zero-encoded, zero-zero-terminated strings with
arbitrary continuations matches bytewise comparison of the raw strings. -/
theorem zeroEnc_lt (s t u v : List Nat) :
    bytesLT (zeroEnc s ++ 0 :: 0 :: u) (zeroEnc t ++ 0 :: 0 :: v) =
      if s = t then bytesLT u v else bytesLT s t := by
  induction s generalizing t u v with
  | nil =>
    cases t with
    | nil => simp [zeroEnc, bytesLT]
    | cons b bs =>
      by_cases hb : b = 0
      · subst hb; simp [zeroEnc, bytesLT]
      · have hbp : 0 < b := Nat.pos_of_ne_zero hb
        simp [zeroEnc, bytesLT, hb, hbp]
  | cons a as ih =>
    cases t with
    | nil =>
      by_cases ha : a = 0
      · subst ha; simp [zeroEnc, bytesLT]
      · have hap : 0 < a := Nat.pos_of_ne_zero ha
        simp [zeroEnc, bytesLT, ha, Nat.not_lt.mpr (Nat.le_of_lt hap), Nat.lt_asymm hap]
    | cons b bs =>
      by_cases ha : a = 0 <;> by_cases hb : b = 0
      · subst ha; subst hb
        have := ih bs u v
        simp only [zeroEnc, if_pos rfl, List.cons_append]
        simp only [bytesLT, Nat.lt_irrefl, if_false, List.append_eq]
        rw [this]
        by_cases hst : as = bs
        · simp [hst]
        · have : ¬ ((0 : Nat) :: as = 0 :: bs) := by simp [hst]
          simp [hst, this, bytesLT]
      · subst ha
        have hbp : 0 < b := Nat.pos_of_ne_zero hb
        have hne : ¬ ((0 : Nat) :: as = b :: bs) := by simp [Ne.symm hb]
        simp [zeroEnc, bytesLT, hb, hbp, hne]
      · subst hb
        have hap : 0 < a := Nat.pos_of_ne_zero ha
        have hne : ¬ (a :: as = (0 : Nat) :: bs) := by simp [ha]
        simp [zeroEnc, bytesLT, ha, hne, hap, Nat.not_lt.mpr (Nat.le_of_lt hap),
          Nat.lt_asymm hap]
      · by_cases hab : a = b
        · subst hab
          have := ih bs u v
          simp only [zeroEnc, if_neg ha, List.cons_append]
          simp only [bytesLT, Nat.lt_irrefl, if_false, List.append_eq]
          rw [this]
          by_cases hst : as = bs
          · simp [hst]
          · have hne : ¬ (a :: as = a :: bs) := by simp [hst]
            simp [hst, hne, bytesLT]
        · have hne : ¬ (a :: as = b :: bs) := by simp [hab]
          rcases Nat.lt_trichotomy a b with hlt | heq | hgt
          · simp [zeroEnc, bytesLT, ha, hb, hne, hlt]
          · exact absurd heq hab
          · simp [zeroEnc, bytesLT, ha, hb, hne, hgt, Nat.lt_asymm hgt]

/-! ### Primitives and the order-preserving key encoding -/

/-- Modelled from the spec: the tagged scalar primitives of §3 whose key
encodings §4.1 defines concretely (`null`, `false`, `true`, signed `int64`,
`double`, zero-encoded `string`). A double is carried as its 64-bit IEEE
representation (the bit pattern, big-endian, as a `Nat` below `2^64`); the
spec assigns `timestamp`, `uuid` and `decimal` no concrete payload
encodings, so only those are outside the model. Strings are byte
sequences. -/
inductive Primitive where
  | nullP : Primitive
  | falseP : Primitive
  | trueP : Primitive
  | int64 (i : Int) : Primitive
  | dbl (x : Nat) : Primitive
  | str (s : List Nat) : Primitive
deriving DecidableEq, Repr

/-- Modelled from the spec: the one-byte type codes of §4.1. The spec fixes no
numeric values, only that codes are distinct, that the group-end marker of
§4.3 is a reserved byte distinct from every type code, and that code order
defines the inter-type order, following the tag list of §3
(`null`, `false`, `true`, `int64`, `double`, `string`); we also reserve
byte 1 for the hash-bucket marker of §4.3. Codes here: hash marker 1, group
end 2, null 3, false 4, true 5, int64 6, double 7, string 8. -/
def typeCode : Primitive → Nat
  | .nullP => 3
  | .falseP => 4
  | .trueP => 5
  | .int64 _ => 6
  | .dbl _ => 7
  | .str _ => 8

/-- Modelled from the spec: the order-preserving transform §4.1 applies to
the 64-bit IEEE representation of a double before writing it big-endian: if
the sign bit is 1, invert all bits (`2^64 - 1 - x`); else flip only the sign
bit (`x + 2^63`). -/
def flipDouble (x : Nat) : Nat :=
  if 2 ^ 63 ≤ x then 2 ^ 64 - 1 - x else x + 2 ^ 63

/-- Inverse of `flipDouble` on 64-bit patterns. -/
def unflipDouble (y : Nat) : Nat :=
  if 2 ^ 63 ≤ y then y - 2 ^ 63 else 2 ^ 64 - 1 - y

/-- Modelled from the spec: numeric order of IEEE doubles read off their
sign-magnitude bit patterns (§3's intended value order within the `double`
type): every sign-bit-1 pattern (negative) precedes every sign-bit-0 pattern
(non-negative); among negatives a larger magnitude pattern is the smaller
number, among non-negatives pattern order is numeric order. -/
def doubleLTb (x y : Nat) : Bool :=
  if 2 ^ 63 ≤ x then
    if 2 ^ 63 ≤ y then decide (y < x) else true
  else
    if 2 ^ 63 ≤ y then false else decide (x < y)

theorem flipDouble_lt_top (x : Nat) (hx : x < 2 ^ 64) : flipDouble x < 2 ^ 64 := by
  simp only [flipDouble]
  split_ifs <;> omega

theorem flipDouble_inj (x y : Nat) (hx : x < 2 ^ 64) (hy : y < 2 ^ 64)
    (h : flipDouble x = flipDouble y) : x = y := by
  simp only [flipDouble] at h
  split_ifs at h <;> omega

/-- The §4.1 double transform is strictly monotone from the double value
order to plain numeric order of the transformed patterns. -/
theorem flipDouble_lt (x y : Nat) (hx : x < 2 ^ 64) (hy : y < 2 ^ 64) :
    decide (flipDouble x < flipDouble y) = doubleLTb x y := by
  simp only [flipDouble, doubleLTb]
  split_ifs <;>
    simp only [decide_eq_decide, decide_eq_true_eq, decide_eq_false_iff_not] <;>
    omega

theorem unflipDouble_flipDouble (x : Nat) (hx : x < 2 ^ 64) :
    unflipDouble (flipDouble x) = x := by
  simp only [flipDouble, unflipDouble]
  split_ifs <;> omega

theorem doubleLTb_irrefl (x : Nat) : doubleLTb x x = false := by
  simp only [doubleLTb]
  split_ifs <;> simp

/-- Modelled from the spec: `encode_key` of the KeyEncoder (§4.1). Type byte
first; `null`/`true`/`false` carry no payload; signed int64 is 8-byte
big-endian with the sign bit flipped (adding `2^63`); a double is its 64-bit
IEEE pattern, all bits inverted when the sign bit is 1 and only the sign bit
flipped otherwise, written big-endian; strings are zero-encoded with
terminator `0x00 0x00`. -/
def encodeKeyPrim : Primitive → List Nat
  | .nullP => [3]
  | .falseP => [4]
  | .trueP => [5]
  | .int64 i => 6 :: beBytes 8 (i + 2 ^ 63).toNat
  | .dbl x => 7 :: beBytes 8 (flipDouble x)
  | .str s => 8 :: (zeroEnc s ++ 0 :: 0 :: [])

/-- A primitive the encoder accepts: int64 in signed 64-bit range, double
bit pattern below `2^64`, string bytes below 256. -/
def validPrim : Primitive → Bool
  | .int64 i => decide (-(2 ^ 63) ≤ i) && decide (i < 2 ^ 63)
  | .dbl x => decide (x < 2 ^ 64)
  | .str s => s.all (fun b => b < 256)
  | _ => true

/-- Modelled from the spec: the defined type/value order on primitives (§3,
§4.1): type codes order the types; within `int64` numeric order, within
`double` the numeric order of the IEEE patterns (`doubleLTb`), within
`string` bytewise order of the raw bytes. -/
def primLTb : Primitive → Primitive → Bool
  | .int64 i, .int64 j => decide (i < j)
  | .dbl x, .dbl y => doubleLTb x y
  | .str s, .str t => bytesLT s t
  | a, b => decide (typeCode a < typeCode b)

/-- The payload the key encoder writes after the type byte. -/
def keyPayload : Primitive → List Nat
  | .int64 i => beBytes 8 (i + 2 ^ 63).toNat
  | .dbl x => beBytes 8 (flipDouble x)
  | .str s => zeroEnc s ++ 0 :: 0 :: []
  | _ => []

theorem encodeKeyPrim_eq_code_payload (p : Primitive) :
    encodeKeyPrim p = typeCode p :: keyPayload p := by
  cases p <;> rfl

theorem bytesLT_cons_same (a : Nat) (u v : List Nat) :
    bytesLT (a :: u) (a :: v) = bytesLT u v := by
  simp [bytesLT]

/-- Primitives of distinct type codes compare by type byte alone, regardless
of payloads and continuations. -/
theorem encodeKeyPrim_lt_cross (p q : Primitive) (h : typeCode p ≠ typeCode q)
    (u v : List Nat) :
    bytesLT (encodeKeyPrim p ++ u) (encodeKeyPrim q ++ v) =
      decide (typeCode p < typeCode q) := by
  rw [encodeKeyPrim_eq_code_payload p, encodeKeyPrim_eq_code_payload q,
    List.cons_append, List.cons_append]
  exact bytesLT_cons_ne _ _ _ _ h

/-- Master order lemma: comparing the encodings of two primitives, each
followed by an arbitrary continuation, is decided entirely inside the
encodings unless the primitives are equal (self-delimiting order
preservation). -/
theorem encodeKeyPrim_lt (p q : Primitive) (hp : validPrim p = true) (hq : validPrim q = true)
    (u v : List Nat) :
    bytesLT (encodeKeyPrim p ++ u) (encodeKeyPrim q ++ v) =
      if p = q then bytesLT u v else primLTb p q := by
  by_cases hpq : p = q
  · subst hpq; rw [if_pos rfl, bytesLT_append_same]
  · rw [if_neg hpq]
    by_cases hc : typeCode p = typeCode q
    · cases p <;> cases q <;> simp only [typeCode] at hc <;> try omega
      all_goals try exact absurd rfl hpq
      next i j =>
        have hi : -(2 ^ 63) ≤ i ∧ i < 2 ^ 63 := by simpa [validPrim] using hp
        have hj : -(2 ^ 63) ≤ j ∧ j < 2 ^ 63 := by simpa [validPrim] using hq
        have hij : i ≠ j := fun hctr => hpq (by rw [hctr])
        simp only [encodeKeyPrim, primLTb, List.cons_append]
        rw [bytesLT_cons_same, beBytes_lt 8 _ _ (by omega) (by omega)]
        have hkne : ¬ ((i + 2 ^ 63).toNat = (j + 2 ^ 63).toNat) := by omega
        have hklt : ((i + 2 ^ 63).toNat < (j + 2 ^ 63).toNat) = (i < j) := by
          apply propext; omega
        rw [if_neg hkne]
        simp only [hklt]
      next x y =>
        have hx : x < 2 ^ 64 := by simpa [validPrim] using hp
        have hy : y < 2 ^ 64 := by simpa [validPrim] using hq
        have hxy : x ≠ y := fun hctr => hpq (by rw [hctr])
        simp only [encodeKeyPrim, primLTb, List.cons_append]
        rw [bytesLT_cons_same,
          beBytes_lt 8 _ _ (by have := flipDouble_lt_top x hx; omega)
            (by have := flipDouble_lt_top y hy; omega)]
        have hkne : ¬ (flipDouble x = flipDouble y) :=
          fun hctr => hxy (flipDouble_inj x y hx hy hctr)
        rw [if_neg hkne, flipDouble_lt x y hx hy]
      next s t =>
        have hst : s ≠ t := fun hctr => hpq (by rw [hctr])
        simp only [encodeKeyPrim, primLTb, List.cons_append, List.append_assoc,
          List.nil_append]
        rw [bytesLT_cons_same, zeroEnc_lt, if_neg hst]
    · rw [encodeKeyPrim_lt_cross p q hc]
      cases p <;> cases q <;> first
        | exact absurd rfl hc
        | simp [primLTb, typeCode]

theorem primLTb_irrefl (a : Primitive) : primLTb a a = false := by
  cases a <;> simp [primLTb, bytesLT_irrefl, doubleLTb_irrefl]

/-- C1: for every two primitives `a` and `b`, the key encoding is
order-preserving: `encode_key(a) < encode_key(b)` bytewise iff `a < b` in the
defined type/value order. -/
theorem key_order_preservation (a b : Primitive) (ha : validPrim a = true)
    (hb : validPrim b = true) :
    (bytesLT (encodeKeyPrim a) (encodeKeyPrim b) = true ↔ primLTb a b = true) := by
  have h := encodeKeyPrim_lt a b ha hb [] []
  simp only [List.append_nil] at h
  rw [h]
  by_cases hab : a = b
  · subst hab
    rw [if_pos rfl, primLTb_irrefl]
    simp [bytesLT]
  · rw [if_neg hab]

/-- Concrete instance of C1: a negative double (sign bit 1) sorts strictly
before a positive one, matching the value order through the sign-conditional
bit flip. -/
theorem key_order_preservation_witness :
    validPrim (Primitive.dbl (2 ^ 63 + 5)) = true ∧
      validPrim (Primitive.dbl 3) = true ∧
      (bytesLT (encodeKeyPrim (Primitive.dbl (2 ^ 63 + 5))) (encodeKeyPrim (Primitive.dbl 3))
          = true ↔
        primLTb (Primitive.dbl (2 ^ 63 + 5)) (Primitive.dbl 3) = true) :=
  ⟨by decide, by decide, key_order_preservation _ _ (by decide) (by decide)⟩

/-! ### DocKey and SubDocKey encodings (§4.3) -/

/-- Modelled from the spec: a DocKey (§3): optional hash-bucket u16, a group
of hashed-range primitives and a group of range primitives. -/
structure DocKey where
  hashBucket : Option Nat
  hashedGroup : List Primitive
  rangeGroup : List Primitive
deriving DecidableEq, Repr

/-- Modelled from the spec: a SubDocKey (§3): DocKey, subkey path, and the
generation HybridTime (a 64-bit logical time, here a `Nat` below `2^64`). -/
structure SubDocKey where
  docKey : DocKey
  subkeys : List Primitive
  hybridTime : Nat
deriving DecidableEq, Repr

/-- Concatenated key encodings of a primitive sequence. -/
def encPrims (l : List Primitive) : List Nat :=
  l.foldr (fun p acc => encodeKeyPrim p ++ acc) []

theorem encPrims_nil : encPrims [] = [] := rfl

theorem encPrims_cons (p : Primitive) (ps : List Primitive) :
    encPrims (p :: ps) = encodeKeyPrim p ++ encPrims ps := rfl

theorem take_len_append (n : Nat) (l1 l2 : List Nat) (h : l1.length = n) :
    (l1 ++ l2).take n = l1 := by
  subst h; simp

theorem drop_len_append (n : Nat) (l1 l2 : List Nat) (h : l1.length = n) :
    (l1 ++ l2).drop n = l2 := by
  subst h; simp

/-- Modelled from the spec: DocKey serialization (§4.3): optional hash bucket
(marked by the reserved byte 1, then 2 bytes big-endian), hashed-range
primitives terminated by the group-end byte 2, range primitives terminated by
a second group-end byte. -/
def encodeDocKey (d : DocKey) : List Nat :=
  (match d.hashBucket with
   | some h => 1 :: beBytes 2 h
   | none => []) ++ (encPrims d.hashedGroup ++ 2 :: (encPrims d.rangeGroup ++ 2 :: []))

/-- Modelled from the spec: HybridTime in keys (§4.1): the bitwise complement
`~t` in 8-byte big-endian, so that larger times sort first. -/
def encodeHT (t : Nat) : List Nat := beBytes 8 (2 ^ 64 - 1 - t)

/-- Modelled from the spec: SubDocKey serialization (§4.3):
`DocKey || subkeys || group-end || hybrid_time` (the subkeys get their own
group-end because a HybridTime follows). -/
def encodeSubDocKey (k : SubDocKey) : List Nat :=
  encodeDocKey k.docKey ++ (encPrims k.subkeys ++ 2 :: encodeHT k.hybridTime)

def validDocKey (d : DocKey) : Bool :=
  (match d.hashBucket with
   | some h => decide (h < 2 ^ 16)
   | none => true) &&
    d.hashedGroup.all validPrim && d.rangeGroup.all validPrim

def validSubDocKey (k : SubDocKey) : Bool :=
  validDocKey k.docKey && k.subkeys.all validPrim && decide (k.hybridTime < 2 ^ 64)

/-- Modelled from the spec: lexicographic order on primitive sequences with
`primLTb` on components (a proper leading subsequence sorts first). -/
def primListLTb : List Primitive → List Primitive → Bool
  | _, [] => false
  | [], _ :: _ => true
  | p :: ps, q :: qs => if p = q then primListLTb ps qs else primLTb p q

/-- Modelled from the spec: order on DocKeys induced by the serialization of
§4.3: keys with a hash bucket sort before keys without one (the hash marker
byte sorts below every other lead byte); within each class the comparison is
lexicographic on (bucket, hashed group, range group). -/
def docKeyLTb (d1 d2 : DocKey) : Bool :=
  match d1.hashBucket, d2.hashBucket with
  | some h1, some h2 =>
    if h1 = h2 then
      if d1.hashedGroup = d2.hashedGroup then primListLTb d1.rangeGroup d2.rangeGroup
      else primListLTb d1.hashedGroup d2.hashedGroup
    else decide (h1 < h2)
  | some _, none => true
  | none, some _ => false
  | none, none =>
    if d1.hashedGroup = d2.hashedGroup then primListLTb d1.rangeGroup d2.rangeGroup
    else primListLTb d1.hashedGroup d2.hashedGroup

theorem bytesLT_groupEnd_enc (q : Primitive) (u w : List Nat) :
    bytesLT (2 :: u) (encodeKeyPrim q ++ w) = true ∧
      bytesLT (encodeKeyPrim q ++ w) (2 :: u) = false := by
  rw [encodeKeyPrim_eq_code_payload q, List.cons_append]
  cases q <;> simp [typeCode, bytesLT]

/-- Comparison of group-end-terminated primitive groups with continuations is
decided by the lexicographic group order unless the groups are equal. -/
theorem encPrims_lt (l1 l2 : List Primitive) (h1 : l1.all validPrim = true)
    (h2 : l2.all validPrim = true) (u v : List Nat) :
    bytesLT (encPrims l1 ++ 2 :: u) (encPrims l2 ++ 2 :: v) =
      if l1 = l2 then bytesLT u v else primListLTb l1 l2 := by
  induction l1 generalizing l2 u v with
  | nil =>
    cases l2 with
    | nil => simp [encPrims, bytesLT_cons_same]
    | cons q qs =>
      simp only [encPrims, List.foldr, List.nil_append]
      rw [List.append_assoc]
      have hlt := (bytesLT_groupEnd_enc q (u) (List.foldr (fun p acc => encodeKeyPrim p ++ acc) [] qs ++ 2 :: v)).1
      rw [hlt]
      simp [primListLTb]
  | cons p ps ih =>
    have hp : validPrim p = true := by
      simp only [List.all_cons, Bool.and_eq_true] at h1; exact h1.1
    have hps : ps.all validPrim = true := by
      simp only [List.all_cons, Bool.and_eq_true] at h1; exact h1.2
    cases l2 with
    | nil =>
      simp only [encPrims, List.foldr, List.nil_append]
      rw [List.append_assoc]
      have hlt := (bytesLT_groupEnd_enc p (v) (List.foldr (fun p acc => encodeKeyPrim p ++ acc) [] ps ++ 2 :: u)).2
      rw [hlt]
      simp [primListLTb]
    | cons q qs =>
      have hq : validPrim q = true := by
        simp only [List.all_cons, Bool.and_eq_true] at h2; exact h2.1
      have hqs : qs.all validPrim = true := by
        simp only [List.all_cons, Bool.and_eq_true] at h2; exact h2.2
      simp only [encPrims] at ih ⊢
      simp only [List.foldr]
      rw [List.append_assoc, List.append_assoc,
        encodeKeyPrim_lt p q hp hq _ _]
      by_cases hpq : p = q
      · subst hpq
        rw [if_pos rfl, ih qs hps hqs u v]
        by_cases hl : ps = qs
        · simp [hl]
        · have : ¬ (p :: ps = p :: qs) := by simp [hl]
          simp [hl, this, primListLTb]
      · have : ¬ (p :: ps = q :: qs) := by simp [hpq]
        simp [hpq, this, primListLTb]

theorem bytesLT_hash_lead (u : List Nat) (l : List Primitive) (w : List Nat) :
    bytesLT (1 :: u) (encPrims l ++ 2 :: w) = true ∧
      bytesLT (encPrims l ++ 2 :: w) (1 :: u) = false := by
  cases l with
  | nil => simp [encPrims, bytesLT]
  | cons q qs =>
    simp only [encPrims, List.foldr]
    rw [List.append_assoc, encodeKeyPrim_eq_code_payload q, List.cons_append]
    cases q <;> simp [typeCode, bytesLT]

/-- Comparison of serialized DocKeys with continuations is decided by the
DocKey order unless the DocKeys are equal. -/
theorem encodeDocKey_lt (d1 d2 : DocKey) (h1 : validDocKey d1 = true)
    (h2 : validDocKey d2 = true) (u v : List Nat) :
    bytesLT (encodeDocKey d1 ++ u) (encodeDocKey d2 ++ v) =
      if d1 = d2 then bytesLT u v else docKeyLTb d1 d2 := by
  rcases d1 with ⟨hb1, hg1, rg1⟩
  rcases d2 with ⟨hb2, hg2, rg2⟩
  simp only [validDocKey, Bool.and_eq_true] at h1 h2
  cases hb1 with
  | some b1 =>
    cases hb2 with
    | some b2 =>
      have hb1' : b1 < 2 ^ (8 * 2) := by
        have := of_decide_eq_true h1.1.1
        norm_num at this ⊢
        exact this
      have hb2' : b2 < 2 ^ (8 * 2) := by
        have := of_decide_eq_true h2.1.1
        norm_num at this ⊢
        exact this
      simp only [encodeDocKey, List.cons_append, List.append_assoc, List.nil_append]
      rw [bytesLT_cons_same, beBytes_lt 2 b1 b2 hb1' hb2']
      by_cases hbb : b1 = b2
      · subst hbb
        rw [if_pos rfl, encPrims_lt hg1 hg2 h1.1.2 h2.1.2]
        by_cases hhg : hg1 = hg2
        · subst hhg
          rw [if_pos rfl, encPrims_lt rg1 rg2 h1.2 h2.2]
          by_cases hrg : rg1 = rg2
          · subst hrg; simp [docKeyLTb]
          · simp [docKeyLTb, DocKey.mk.injEq, hrg]
        · simp [docKeyLTb, DocKey.mk.injEq, hhg]
      · simp [docKeyLTb, DocKey.mk.injEq, hbb]
    | none =>
      simp only [encodeDocKey, List.cons_append, List.append_assoc, List.nil_append]
      rw [(bytesLT_hash_lead _ hg2 _).1]
      simp [docKeyLTb, DocKey.mk.injEq]
  | none =>
    cases hb2 with
    | some b2 =>
      simp only [encodeDocKey, List.cons_append, List.append_assoc, List.nil_append]
      rw [(bytesLT_hash_lead _ hg1 _).2]
      simp [docKeyLTb, DocKey.mk.injEq]
    | none =>
      simp only [encodeDocKey, List.cons_append, List.append_assoc, List.nil_append]
      rw [encPrims_lt hg1 hg2 h1.1.2 h2.1.2]
      by_cases hhg : hg1 = hg2
      · subst hhg
        rw [if_pos rfl, encPrims_lt rg1 rg2 h1.2 h2.2]
        by_cases hrg : rg1 = rg2
        · subst hrg; simp [docKeyLTb]
        · simp [docKeyLTb, DocKey.mk.injEq, hrg]
      · simp [docKeyLTb, DocKey.mk.injEq, hhg]

theorem primListLTb_irrefl (l : List Primitive) : primListLTb l l = false := by
  induction l with
  | nil => rfl
  | cons p ps ih => simp [primListLTb, ih]

/-- Modelled from the spec: the path of a SubDocKey is its (DocKey, subkey
sequence) pair; `sdkPathLTb` is the lexicographic order on paths (invariant
§3.1). -/
def sdkPathLTb (a b : SubDocKey) : Bool :=
  if a.docKey = b.docKey then primListLTb a.subkeys b.subkeys
  else docKeyLTb a.docKey b.docKey

/-- C3: for SubDocKeys `A`, `B` with encodings `eA`, `eB`: `eA < eB` bytewise
iff the (DocKey, subkey) path of `A` precedes that of `B` lexicographically,
or the paths are equal and `A` has the larger HybridTime (larger times sort
first because the key stores the bitwise complement of the time,
big-endian). -/
theorem subdockey_order (A B : SubDocKey) (hA : validSubDocKey A = true)
    (hB : validSubDocKey B = true) :
    (bytesLT (encodeSubDocKey A) (encodeSubDocKey B) = true ↔
      (sdkPathLTb A B = true ∨
        (A.docKey = B.docKey ∧ A.subkeys = B.subkeys ∧ B.hybridTime < A.hybridTime))) := by
  rcases A with ⟨dA, sA, tA⟩
  rcases B with ⟨dB, sB, tB⟩
  simp only [validSubDocKey, Bool.and_eq_true] at hA hB
  have htA : tA < 2 ^ 64 := of_decide_eq_true hA.2
  have htB : tB < 2 ^ 64 := of_decide_eq_true hB.2
  simp only [encodeSubDocKey, sdkPathLTb]
  rw [encodeDocKey_lt dA dB hA.1.1 hB.1.1]
  by_cases hd : dA = dB
  · subst hd
    rw [if_pos rfl, encPrims_lt sA sB hA.1.2 hB.1.2]
    by_cases hs : sA = sB
    · subst hs
      rw [if_pos rfl]
      simp only [encodeHT]
      have hlt := beBytes_lt 8 (2 ^ 64 - 1 - tA) (2 ^ 64 - 1 - tB)
        (by omega) (by omega) [] []
      simp only [List.append_nil] at hlt
      rw [hlt]
      by_cases ht : tA = tB
      · subst ht
        simp [bytesLT, primListLTb_irrefl]
      · have hne : ¬ (2 ^ 64 - 1 - tA = 2 ^ 64 - 1 - tB) := by omega
        rw [if_neg hne]
        simp [primListLTb_irrefl]
        omega
    · rw [if_neg hs]
      simp [hs]
  · rw [if_neg hd, if_neg hd]
    simp [hd]

/-- Concrete instance of C3: equal paths, larger HybridTime sorts first. -/
theorem subdockey_order_witness :
    validSubDocKey ⟨⟨some 7, [Primitive.int64 1], []⟩, [Primitive.str [3]], 20⟩ = true ∧
      validSubDocKey ⟨⟨some 7, [Primitive.int64 1], []⟩, [Primitive.str [3]], 5⟩ = true ∧
      (bytesLT (encodeSubDocKey ⟨⟨some 7, [Primitive.int64 1], []⟩, [Primitive.str [3]], 20⟩)
          (encodeSubDocKey ⟨⟨some 7, [Primitive.int64 1], []⟩, [Primitive.str [3]], 5⟩) = true ↔
        (sdkPathLTb ⟨⟨some 7, [Primitive.int64 1], []⟩, [Primitive.str [3]], 20⟩
            ⟨⟨some 7, [Primitive.int64 1], []⟩, [Primitive.str [3]], 5⟩ = true ∨
          (((⟨some 7, [Primitive.int64 1], []⟩ : DocKey) = ⟨some 7, [Primitive.int64 1], []⟩) ∧
            ([Primitive.str [3]] : List Primitive) = [Primitive.str [3]] ∧ (5 : Nat) < 20))) :=
  ⟨by decide, by decide, subdockey_order _ _ (by decide) (by decide)⟩

/-! ### Decoders (§4.1, §4.3): exact inverses failing on unknown type bytes
or truncated payloads -/

/-- Modelled from the spec: inverse of the zero-encoding; `none` models a
`CorruptKey` failure (truncated payload or stray `0x00` escape). Returns the
decoded string and the bytes after the terminator. -/
def decodeZeroEnc : List Nat → Option (List Nat × List Nat)
  | [] => none
  | c :: rest =>
    if c = 0 then
      match rest with
      | [] => none
      | d :: rest2 =>
        if d = 0 then some ([], rest2)
        else if d = 1 then
          match decodeZeroEnc rest2 with
          | none => none
          | some (s, r) => some (0 :: s, r)
        else none
    else
      match decodeZeroEnc rest with
      | none => none
      | some (s, r) => some (c :: s, r)

theorem decodeZeroEnc_roundtrip (s u : List Nat) :
    decodeZeroEnc (zeroEnc s ++ 0 :: 0 :: u) = some (s, u) := by
  induction s with
  | nil => simp [zeroEnc, decodeZeroEnc]
  | cons c s' ih =>
    by_cases hc : c = 0
    · subst hc; simp [zeroEnc, decodeZeroEnc, ih]
    · have hz : zeroEnc (c :: s') = c :: zeroEnc s' := by simp [zeroEnc, hc]
      rw [hz, List.cons_append, decodeZeroEnc.eq_def]
      simp only [if_neg hc, ih]

/-- Modelled from the spec: KeyEncoder decoder (§4.1): reads the type byte,
then the type-specific payload; `none` models `CorruptKey` on unknown type
bytes or truncated payloads. Self-delimiting: returns the remaining bytes. -/
def decodePrimKey : List Nat → Option (Primitive × List Nat)
  | 3 :: rest => some (.nullP, rest)
  | 4 :: rest => some (.falseP, rest)
  | 5 :: rest => some (.trueP, rest)
  | 6 :: rest =>
    if 8 ≤ rest.length then
      some (.int64 ((fromBE (rest.take 8) : Int) - 2 ^ 63), rest.drop 8)
    else none
  | 7 :: rest =>
    if 8 ≤ rest.length then
      some (.dbl (unflipDouble (fromBE (rest.take 8))), rest.drop 8)
    else none
  | 8 :: rest =>
    match decodeZeroEnc rest with
    | none => none
    | some (s, r) => some (.str s, r)
  | _ => none

theorem decodePrimKey_roundtrip (p : Primitive) (u : List Nat) (hp : validPrim p = true) :
    decodePrimKey (encodeKeyPrim p ++ u) = some (p, u) := by
  cases p with
  | nullP => simp [encodeKeyPrim, decodePrimKey]
  | falseP => simp [encodeKeyPrim, decodePrimKey]
  | trueP => simp [encodeKeyPrim, decodePrimKey]
  | int64 i =>
    have hi : -(2 ^ 63) ≤ i ∧ i < 2 ^ 63 := by simpa [validPrim] using hp
    have hk : (i + 2 ^ 63).toNat < 2 ^ (8 * 8) := by omega
    have hfrom := fromBE_beBytes 8 _ hk
    simp only [encodeKeyPrim, List.cons_append]
    generalize hB : beBytes 8 (i + 2 ^ 63).toNat = B at hfrom ⊢
    have hlen : B.length = 8 := by rw [← hB]; exact beBytes_length _ _
    have hge : 8 ≤ (B ++ u).length := by rw [List.length_append, hlen]; omega
    have htake : (B ++ u).take 8 = B := take_len_append 8 B u hlen
    have hdrop : (B ++ u).drop 8 = u := drop_len_append 8 B u hlen
    simp only [decodePrimKey, hge, if_true, htake, hdrop, hfrom]
    simp only [Option.some.injEq, Prod.mk.injEq, Primitive.int64.injEq]
    exact ⟨by omega, trivial⟩
  | dbl x =>
    have hx : x < 2 ^ 64 := by simpa [validPrim] using hp
    have hk : flipDouble x < 2 ^ (8 * 8) := by
      have := flipDouble_lt_top x hx; omega
    have hfrom := fromBE_beBytes 8 _ hk
    simp only [encodeKeyPrim, List.cons_append]
    generalize hB : beBytes 8 (flipDouble x) = B at hfrom ⊢
    have hlen : B.length = 8 := by rw [← hB]; exact beBytes_length _ _
    have hge : 8 ≤ (B ++ u).length := by rw [List.length_append, hlen]; omega
    have htake : (B ++ u).take 8 = B := take_len_append 8 B u hlen
    have hdrop : (B ++ u).drop 8 = u := drop_len_append 8 B u hlen
    simp only [decodePrimKey, hge, if_true, htake, hdrop, hfrom,
      unflipDouble_flipDouble x hx]
  | str s =>
    simp only [encodeKeyPrim, List.cons_append, List.append_assoc, List.nil_append,
      decodePrimKey, decodeZeroEnc_roundtrip s u]

theorem typeCode_ge_three (p : Primitive) : 3 ≤ typeCode p := by
  cases p <;> simp [typeCode]

theorem encPrims_length_ge (l : List Primitive) : l.length ≤ (encPrims l).length := by
  induction l with
  | nil => simp [encPrims]
  | cons p ps ih =>
    have hpos : 0 < (encodeKeyPrim p).length := by cases p <;> simp [encodeKeyPrim]
    simp only [encPrims, List.foldr, List.length_append, List.length_cons] at ih ⊢
    omega

/-- Modelled from the spec: decoder of a group-end-terminated primitive group
(§4.3). The fuel argument bounds the number of primitives; callers pass the
byte length, which always suffices. -/
def decodePrims : Nat → List Nat → Option (List Primitive × List Nat)
  | _, [] => none
  | fuel, c :: rest =>
    if c = 2 then some ([], rest)
    else
      match fuel with
      | 0 => none
      | fuel' + 1 =>
        match decodePrimKey (c :: rest) with
        | none => none
        | some (p, rest2) =>
          match decodePrims fuel' rest2 with
          | none => none
          | some (l, rest3) => some (p :: l, rest3)

theorem decodePrims_roundtrip (l : List Primitive) (fuel : Nat) (u : List Nat)
    (hfuel : l.length ≤ fuel) (hl : l.all validPrim = true) :
    decodePrims fuel (encPrims l ++ 2 :: u) = some (l, u) := by
  induction l generalizing fuel u with
  | nil =>
    rw [encPrims_nil, List.nil_append, decodePrims.eq_def]
    simp
  | cons p ps ih =>
    have hp : validPrim p = true := by
      simp only [List.all_cons, Bool.and_eq_true] at hl; exact hl.1
    have hps : ps.all validPrim = true := by
      simp only [List.all_cons, Bool.and_eq_true] at hl; exact hl.2
    cases fuel with
    | zero => simp at hfuel
    | succ fuel' =>
      have hcode : ¬ (typeCode p = 2) := by
        have := typeCode_ge_three p; omega
      have hrt : decodePrimKey (typeCode p :: (keyPayload p ++ (encPrims ps ++ 2 :: u)))
          = some (p, encPrims ps ++ 2 :: u) := by
        rw [← List.cons_append, ← encodeKeyPrim_eq_code_payload p]
        exact decodePrimKey_roundtrip p _ hp
      have hih := ih fuel' u (by simp at hfuel; omega) hps
      rw [encPrims_cons, List.append_assoc, encodeKeyPrim_eq_code_payload p,
        List.cons_append, decodePrims.eq_def]
      simp only [if_neg hcode, hrt, hih]

/-- Modelled from the spec: DocKey decoder (§4.3): optional hash bucket
marked by the reserved byte 1, then the two group-end-terminated primitive
groups; `none` models `CorruptKey`. -/
def decodeDocKey : List Nat → Option (DocKey × List Nat)
  | [] => none
  | c :: rest =>
    if c = 1 then
      if 2 ≤ rest.length then
        match decodePrims (rest.drop 2).length (rest.drop 2) with
        | none => none
        | some (hs, rest2) =>
          match decodePrims rest2.length rest2 with
          | none => none
          | some (rs, rest3) => some (⟨some (fromBE (rest.take 2)), hs, rs⟩, rest3)
      else none
    else
      match decodePrims (c :: rest).length (c :: rest) with
      | none => none
      | some (hs, rest2) =>
        match decodePrims rest2.length rest2 with
        | none => none
        | some (rs, rest3) => some (⟨none, hs, rs⟩, rest3)

theorem decodeDocKey_roundtrip (d : DocKey) (u : List Nat) (hd : validDocKey d = true) :
    decodeDocKey (encodeDocKey d ++ u) = some (d, u) := by
  rcases d with ⟨hb, hg, rg⟩
  simp only [validDocKey, Bool.and_eq_true] at hd
  have hhg := hd.1.2
  have hrg := hd.2
  have step2 : ∀ w : List Nat,
      decodePrims (encPrims rg ++ 2 :: w).length (encPrims rg ++ 2 :: w) = some (rg, w) := by
    intro w
    apply decodePrims_roundtrip rg _ w _ hrg
    have := encPrims_length_ge rg
    rw [List.length_append, List.length_cons]
    omega
  have step1 : ∀ w : List Nat,
      decodePrims (encPrims hg ++ 2 :: w).length (encPrims hg ++ 2 :: w) = some (hg, w) := by
    intro w
    apply decodePrims_roundtrip hg _ w _ hhg
    have := encPrims_length_ge hg
    rw [List.length_append, List.length_cons]
    omega
  cases hb with
  | some b =>
    have hblt : b < 2 ^ (8 * 2) := by
      have := of_decide_eq_true hd.1.1
      norm_num at this ⊢
      exact this
    have hlen2 : (beBytes 2 b).length = 2 := beBytes_length _ _
    have hge : 2 ≤ (beBytes 2 b ++ (encPrims hg ++ 2 :: (encPrims rg ++ 2 :: u))).length := by
      rw [List.length_append, hlen2]; omega
    have htake := take_len_append 2 (beBytes 2 b)
      (encPrims hg ++ 2 :: (encPrims rg ++ 2 :: u)) hlen2
    have hdrop := drop_len_append 2 (beBytes 2 b)
      (encPrims hg ++ 2 :: (encPrims rg ++ 2 :: u)) hlen2
    simp only [encodeDocKey, List.cons_append, List.append_assoc, List.nil_append]
    rw [decodeDocKey.eq_def]
    simp only [hge, eq_self_iff_true, if_true, htake, hdrop,
      fromBE_beBytes 2 b hblt, step1, step2]
  | none =>
    cases hg with
    | nil =>
      have h20 : ∀ (f : Nat) (X : List Nat), decodePrims f (2 :: X) = some ([], X) := by
        intro f X
        rw [decodePrims.eq_def]
        simp
      simp only [encodeDocKey, encPrims_nil, List.nil_append, List.append_assoc,
        List.cons_append]
      rw [decodeDocKey.eq_def]
      simp only [h20, step2]
      rw [if_neg (by norm_num : ¬ ((2 : Nat) = 1))]
    | cons q qs =>
      have hne1 : ¬ (typeCode q = 1) := by
        have := typeCode_ge_three q; omega
      have h1 : decodePrims
          (typeCode q :: (keyPayload q ++ (encPrims qs ++ 2 :: (encPrims rg ++ 2 :: u)))).length
          (typeCode q :: (keyPayload q ++ (encPrims qs ++ 2 :: (encPrims rg ++ 2 :: u))))
          = some (q :: qs, encPrims rg ++ 2 :: u) := by
        rw [← List.cons_append, ← encodeKeyPrim_eq_code_payload q, ← List.append_assoc,
          ← encPrims_cons]
        exact step1 _
      simp only [encodeDocKey, encPrims_cons, List.nil_append, List.append_assoc,
        List.cons_append]
      rw [encodeKeyPrim_eq_code_payload q, List.cons_append, decodeDocKey.eq_def]
      simp only [if_neg hne1, h1, step2]

/-- Modelled from the spec: SubDocKey decoder (§4.3): DocKey, subkeys up to
the group-end, then exactly 8 bytes of complemented HybridTime. -/
def decodeSubDocKey (bytes : List Nat) : Option SubDocKey :=
  match decodeDocKey bytes with
  | none => none
  | some (d, rest) =>
    match decodePrims rest.length rest with
    | none => none
    | some (sks, rest2) =>
      if rest2.length = 8 then some ⟨d, sks, 2 ^ 64 - 1 - fromBE rest2⟩ else none

theorem decodeSubDocKey_roundtrip (k : SubDocKey) (hk : validSubDocKey k = true) :
    decodeSubDocKey (encodeSubDocKey k) = some k := by
  rcases k with ⟨d, sks, t⟩
  simp only [validSubDocKey, Bool.and_eq_true] at hk
  have ht : t < 2 ^ 64 := of_decide_eq_true hk.2
  have hsub : decodePrims (encPrims sks ++ 2 :: encodeHT t).length
      (encPrims sks ++ 2 :: encodeHT t) = some (sks, encodeHT t) := by
    apply decodePrims_roundtrip sks _ _ _ hk.1.2
    have := encPrims_length_ge sks
    rw [List.length_append, List.length_cons]
    omega
  have hlen : (encodeHT t).length = 8 := beBytes_length _ _
  have hfrom : fromBE (encodeHT t) = 2 ^ 64 - 1 - t := by
    apply fromBE_beBytes
    omega
  have harith : 2 ^ 64 - 1 - (2 ^ 64 - 1 - t) = t := by omega
  simp only [encodeSubDocKey, decodeSubDocKey, decodeDocKey_roundtrip d _ hk.1.1, hsub,
    hlen, hfrom, harith, eq_self_iff_true, if_true]

/-! ### Value encoding (§4.2) -/

/-- Modelled from the spec: a Value (§3) is a primitive or a tombstone, with
an optional TTL (milliseconds; `none` models `kMaxTtl`, never expiring). -/
inductive ValueCore where
  | prim (p : Primitive) : ValueCore
  | tombstone : ValueCore
deriving DecidableEq, Repr

structure Value where
  ttl : Option Nat
  core : ValueCore
deriving DecidableEq, Repr

/-- Modelled from the spec: ValueEncoder (§4.2): one-byte type tag followed
by a type-specific payload; int64 is plain big-endian (two's complement)
without the sign flip used in keys, and a double likewise is its plain IEEE
pattern big-endian without the key transform; a tombstone is a single byte;
strings need no terminator because the store delimits values. Tag bytes
here: tombstone 20, ttl marker 21, null 22, false 23, true 24, int64 25,
string 26, double 27 (the spec fixes no numeric values). -/
def encodeValCore : ValueCore → List Nat
  | .tombstone => [20]
  | .prim .nullP => [22]
  | .prim .falseP => [23]
  | .prim .trueP => [24]
  | .prim (.int64 i) => 25 :: beBytes 8 (i % 2 ^ 64).toNat
  | .prim (.str s) => 26 :: s
  | .prim (.dbl x) => 27 :: beBytes 8 x

/-- Modelled from the spec: a TTL-bearing value begins with the `ttl` marker
byte followed by the 8-byte big-endian millisecond count, then the wrapped
value (§4.2). -/
def encodeValue (v : Value) : List Nat :=
  match v.ttl with
  | some d => 21 :: (beBytes 8 d ++ encodeValCore v.core)
  | none => encodeValCore v.core

/-- Signed interpretation of an 8-byte unsigned value (two's complement). -/
def ofUnsigned (k : Nat) : Int := if k < 2 ^ 63 then (k : Int) else (k : Int) - 2 ^ 64

/-- Modelled from the spec: ValueEncoder decoder; `none` models
`CorruptValue`. Consumes the whole byte string. -/
def decodeValCore : List Nat → Option ValueCore
  | 20 :: rest => if rest = [] then some .tombstone else none
  | 22 :: rest => if rest = [] then some (.prim .nullP) else none
  | 23 :: rest => if rest = [] then some (.prim .falseP) else none
  | 24 :: rest => if rest = [] then some (.prim .trueP) else none
  | 25 :: rest =>
    if rest.length = 8 then some (.prim (.int64 (ofUnsigned (fromBE rest)))) else none
  | 26 :: rest => some (.prim (.str rest))
  | 27 :: rest =>
    if rest.length = 8 then some (.prim (.dbl (fromBE rest))) else none
  | _ => none

def decodeValue : List Nat → Option Value
  | [] => none
  | c :: rest =>
    if c = 21 then
      if 8 ≤ rest.length then
        match decodeValCore (rest.drop 8) with
        | none => none
        | some vc => some ⟨some (fromBE (rest.take 8)), vc⟩
      else none
    else
      match decodeValCore (c :: rest) with
      | none => none
      | some vc => some ⟨none, vc⟩

def validValue (v : Value) : Bool :=
  (match v.ttl with
   | some d => decide (d < 2 ^ 64)
   | none => true) &&
    (match v.core with
     | .prim p => validPrim p
     | .tombstone => true)

theorem decodeValCore_roundtrip (c : ValueCore)
    (h : (match c with | .prim p => validPrim p | .tombstone => true) = true) :
    decodeValCore (encodeValCore c) = some c := by
  cases c with
  | tombstone => simp [encodeValCore, decodeValCore]
  | prim p =>
    cases p with
    | nullP => simp [encodeValCore, decodeValCore]
    | falseP => simp [encodeValCore, decodeValCore]
    | trueP => simp [encodeValCore, decodeValCore]
    | str s => simp [encodeValCore, decodeValCore]
    | dbl x =>
      have hx : x < 2 ^ 64 := by simpa [validPrim] using h
      have hk : x < 2 ^ (8 * 8) := by omega
      have hfrom := fromBE_beBytes 8 x hk
      simp only [encodeValCore]
      generalize hB : beBytes 8 x = B at hfrom
      have hlen : B.length = 8 := by rw [← hB]; exact beBytes_length _ _
      simp only [decodeValCore, hlen, eq_self_iff_true, if_true, hfrom]
    | int64 i =>
      have hi : -(2 ^ 63) ≤ i ∧ i < 2 ^ 63 := by simpa [validPrim] using h
      have hk : (i % 2 ^ 64).toNat < 2 ^ (8 * 8) := by omega
      have hfrom := fromBE_beBytes 8 _ hk
      simp only [encodeValCore]
      generalize hB : beBytes 8 (i % 2 ^ 64).toNat = B at hfrom
      have hlen : B.length = 8 := by rw [← hB]; exact beBytes_length _ _
      simp only [decodeValCore, hlen, eq_self_iff_true, if_true, hfrom]
      simp only [Option.some.injEq, ValueCore.prim.injEq, Primitive.int64.injEq, ofUnsigned]
      split
      · omega
      · omega

/-- Tag byte of a value encoding; distinct from the ttl marker byte 21. -/
def valCode : ValueCore → Nat
  | .tombstone => 20
  | .prim .nullP => 22
  | .prim .falseP => 23
  | .prim .trueP => 24
  | .prim (.int64 _) => 25
  | .prim (.str _) => 26
  | .prim (.dbl _) => 27

def valPayload : ValueCore → List Nat
  | .tombstone => []
  | .prim .nullP => []
  | .prim .falseP => []
  | .prim .trueP => []
  | .prim (.int64 i) => beBytes 8 (i % 2 ^ 64).toNat
  | .prim (.str s) => s
  | .prim (.dbl x) => beBytes 8 x

theorem encodeValCore_eq (c : ValueCore) : encodeValCore c = valCode c :: valPayload c := by
  cases c with
  | tombstone => rfl
  | prim p => cases p <;> rfl

theorem valCode_ne_ttl (c : ValueCore) : ¬ (valCode c = 21) := by
  cases c with
  | tombstone => simp [valCode]
  | prim p => cases p <;> simp [valCode]

theorem decodeValue_roundtrip (v : Value) (hv : validValue v = true) :
    decodeValue (encodeValue v) = some v := by
  rcases v with ⟨ttl, core⟩
  simp only [validValue, Bool.and_eq_true] at hv
  have hcore : decodeValCore (encodeValCore core) = some core :=
    decodeValCore_roundtrip core hv.2
  cases ttl with
  | none =>
    simp only [encodeValue]
    rw [encodeValCore_eq core, decodeValue.eq_def]
    simp only [if_neg (valCode_ne_ttl core)]
    rw [← encodeValCore_eq core]
    simp only [hcore]
  | some d =>
    have hd64 : d < 2 ^ 64 := of_decide_eq_true hv.1
    have hk : d < 2 ^ (8 * 8) := by omega
    have hfrom := fromBE_beBytes 8 d hk
    simp only [encodeValue]
    generalize hB : beBytes 8 d = B at hfrom
    have hlen : B.length = 8 := by rw [← hB]; exact beBytes_length _ _
    have hge : 8 ≤ (B ++ encodeValCore core).length := by
      rw [List.length_append, hlen]; omega
    have htake : (B ++ encodeValCore core).take 8 = B := take_len_append 8 _ _ hlen
    have hdrop : (B ++ encodeValCore core).drop 8 = encodeValCore core :=
      drop_len_append 8 _ _ hlen
    rw [decodeValue.eq_def]
    simp only [eq_self_iff_true, if_true, hge, htake, hdrop, hcore, hfrom]

/-- C2: the decoder is the exact inverse of the encoder for every primitive
(self-delimiting: with any continuation), value, DocKey (with any
continuation), and SubDocKey. -/
theorem decode_encode_roundtrip :
    (∀ (p : Primitive) (u : List Nat), validPrim p = true →
      decodePrimKey (encodeKeyPrim p ++ u) = some (p, u)) ∧
    (∀ v : Value, validValue v = true → decodeValue (encodeValue v) = some v) ∧
    (∀ (d : DocKey) (u : List Nat), validDocKey d = true →
      decodeDocKey (encodeDocKey d ++ u) = some (d, u)) ∧
    (∀ k : SubDocKey, validSubDocKey k = true →
      decodeSubDocKey (encodeSubDocKey k) = some k) :=
  ⟨fun p u hp => decodePrimKey_roundtrip p u hp,
   fun v hv => decodeValue_roundtrip v hv,
   fun d u hd => decodeDocKey_roundtrip d u hd,
   fun k hk => decodeSubDocKey_roundtrip k hk⟩

/-- Concrete instance of C2: a SubDocKey with hash bucket, negative int64,
string containing a zero byte, a negative double subkey, and a TTL-bearing
negative int64 value all survive the round trip. -/
theorem decode_encode_roundtrip_witness :
    validSubDocKey ⟨⟨some 300, [Primitive.int64 (-5)], [Primitive.str [0, 7]]⟩,
        [Primitive.dbl (2 ^ 63 + 9)], 99⟩ = true ∧
      decodeSubDocKey (encodeSubDocKey
          ⟨⟨some 300, [Primitive.int64 (-5)], [Primitive.str [0, 7]]⟩,
            [Primitive.dbl (2 ^ 63 + 9)], 99⟩)
        = some ⟨⟨some 300, [Primitive.int64 (-5)], [Primitive.str [0, 7]]⟩,
            [Primitive.dbl (2 ^ 63 + 9)], 99⟩ ∧
      validValue ⟨some 1000, ValueCore.prim (Primitive.int64 (-7))⟩ = true ∧
      decodeValue (encodeValue ⟨some 1000, ValueCore.prim (Primitive.int64 (-7))⟩)
        = some ⟨some 1000, ValueCore.prim (Primitive.int64 (-7))⟩ :=
  ⟨by decide, decode_encode_roundtrip.2.2.2 _ (by decide), by decide,
   decode_encode_roundtrip.2.1 _ (by decide)⟩

/-! ### MVCC reader semantics (§3 invariants 2, 4, 6 and §4.7)

The reader's visibility rules are independent of the key byte encoding, so
the store is modelled logically: a list of entries (path, generation time,
value), with paths as abstract subkey sequences (`List Nat`). -/

/-- Modelled from the spec: a stored value as the reader classifies it —
an object init marker, a tombstone, or a primitive (abstracted to a `Nat`
payload) with its optional TTL (§4.5, §4.7). -/
inductive EVal where
  | obj : EVal
  | tomb : EVal
  | pv (v : Nat) (ttl : Option Nat) : EVal
deriving DecidableEq, Repr

/-- One KV entry as decoded: path (subkey sequence below the document root),
generation HybridTime, value. -/
structure Entry where
  path : List Nat
  time : Nat
  val : EVal
deriving DecidableEq, Repr

/-- Modelled from the spec: the logical content of the store, a set of
entries given as a list. -/
abbrev Store := List Entry

/-- `isAnc p q`: `p` is an ancestor of `q` or equal to it (`p` is a leading
part of the path `q`). -/
def isAnc : List Nat → List Nat → Bool
  | [], _ => true
  | _ :: _, [] => false
  | a :: p, b :: q => a = b && isAnc p q

def strictAnc (p q : List Nat) : Bool := isAnc p q && !(p == q)

/-- Modelled from the spec: the latest entry at exactly path `p` with
generation time `≤ S` (§4.7 step 2: the store sorts times descending, so this
is the first physical entry at the prefix). -/
def latestAt (st : Store) (p : List Nat) (S : Nat) : Option Entry :=
  st.foldr
    (fun e acc =>
      if e.path = p ∧ e.time ≤ S then
        match acc with
        | none => some e
        | some e2 => if e2.time < e.time then some e else some e2
      else acc)
    none

/-- Modelled from the spec: TTL expiry (§3 invariant 6, §4.7 step 4): a value
with TTL `d` and generation time `g` is expired at snapshot `S` when
`g + d ≤ S`; a value without TTL (`kMaxTtl`) never expires. -/
def expiredAt (e : Entry) (S : Nat) : Bool :=
  match e.val with
  | .pv _ (some d) => decide (e.time + d ≤ S)
  | _ => false

/-- An overwrite entry: an object init marker or a tombstone (§3 invariant
2: a later object/tombstone at an ancestor hides older descendants). -/
def isOverwrite : EVal → Bool
  | .obj => true
  | .tomb => true
  | .pv _ _ => false

/-- Modelled from the spec: §3 invariant 2's ancestor condition — some strict
ancestor of `p` has an overwrite entry with time in `(t, S]`. -/
def hiddenByAnc (st : Store) (p : List Nat) (t S : Nat) : Bool :=
  st.any (fun e =>
    strictAnc e.path p && isOverwrite e.val && decide (t < e.time) && decide (e.time ≤ S))

/-- Modelled from the spec: §3 invariant 2 — the entry that makes the node at
`p` exist at snapshot `S`: the latest entry at `p` with time `≤ S`, provided
it is not a tombstone, not expired, and no strict ancestor overwrote it
later. -/
def liveEntry (st : Store) (S : Nat) (p : List Nat) : Option Entry :=
  match latestAt st p S with
  | none => none
  | some e =>
    if e.val = EVal.tomb ∨ expiredAt e S = true ∨ hiddenByAnc st p e.time S = true then none
    else some e

def nodeLive (st : Store) (S : Nat) (p : List Nat) : Bool := (liveEntry st S p).isSome

/-- The node at `p` is a live primitive leaf with payload `v` at snapshot
`S`. -/
def liveLeaf (st : Store) (S : Nat) (p : List Nat) (v : Nat) : Bool :=
  match liveEntry st S p with
  | some ⟨_, _, .pv w _⟩ => w == v
  | _ => false

/-- Modelled from the spec: GetSubDocument's `doc_found` (§4.7): the scanned
node exists if it has a live entry of its own or any live descendant (the
marker-free rule: object existence is proven by an `object@g` entry at the
path, or by any live descendant). -/
def docFound (st : Store) (S : Nat) (p : List Nat) : Bool :=
  nodeLive st S p || st.any (fun e => strictAnc p e.path && nodeLive st S e.path)

theorem latestAt_cons (a : Entry) (st : Store) (p : List Nat) (S : Nat) :
    latestAt (a :: st) p S =
      if a.path = p ∧ a.time ≤ S then
        match latestAt st p S with
        | none => some a
        | some e2 => if e2.time < a.time then some a else some e2
      else latestAt st p S := rfl

theorem latestAt_cons_none (a : Entry) (st : Store) (p : List Nat) (S : Nat)
    (ha : a.path = p ∧ a.time ≤ S) (h0 : latestAt st p S = none) :
    latestAt (a :: st) p S = some a := by
  rw [latestAt_cons, if_pos ha, h0]

theorem latestAt_cons_some (a : Entry) (st : Store) (p : List Nat) (S : Nat) (e2 : Entry)
    (ha : a.path = p ∧ a.time ≤ S) (h0 : latestAt st p S = some e2) :
    latestAt (a :: st) p S = if e2.time < a.time then some a else some e2 := by
  rw [latestAt_cons, if_pos ha, h0]

theorem latestAt_cons_skip (a : Entry) (st : Store) (p : List Nat) (S : Nat)
    (ha : ¬ (a.path = p ∧ a.time ≤ S)) :
    latestAt (a :: st) p S = latestAt st p S := by
  rw [latestAt_cons, if_neg ha]

theorem latestAt_isSome_of_mem (st : Store) (p : List Nat) (S : Nat) (e : Entry)
    (he : e ∈ st) (hp : e.path = p) (ht : e.time ≤ S) :
    ∃ e2, latestAt st p S = some e2 := by
  induction st with
  | nil => simp at he
  | cons a st' ih =>
    rcases List.mem_cons.mp he with rfl | he'
    · cases hacc : latestAt st' p S with
      | none => exact ⟨e, latestAt_cons_none e st' p S ⟨hp, ht⟩ hacc⟩
      | some e2 =>
        rw [latestAt_cons_some e st' p S e2 ⟨hp, ht⟩ hacc]
        by_cases hlt : e2.time < e.time
        · rw [if_pos hlt]; exact ⟨e, rfl⟩
        · rw [if_neg hlt]; exact ⟨e2, rfl⟩
    · rcases ih he' with ⟨e2, he2⟩
      by_cases ha : a.path = p ∧ a.time ≤ S
      · rw [latestAt_cons_some a st' p S e2 ha he2]
        by_cases hlt : e2.time < a.time
        · rw [if_pos hlt]; exact ⟨a, rfl⟩
        · rw [if_neg hlt]; exact ⟨e2, rfl⟩
      · rw [latestAt_cons_skip a st' p S ha]
        exact ⟨e2, he2⟩

/-- The entry `latestAt` returns is in the store, lies at the requested path
with time within the snapshot, and has the maximal such time. -/
theorem latestAt_some_spec (st : Store) (p : List Nat) (S : Nat) (e : Entry)
    (h : latestAt st p S = some e) :
    e ∈ st ∧ e.path = p ∧ e.time ≤ S ∧
      (∀ e2 ∈ st, e2.path = p → e2.time ≤ S → e2.time ≤ e.time) := by
  induction st generalizing e with
  | nil => simp [latestAt] at h
  | cons a st' ih =>
    by_cases ha : a.path = p ∧ a.time ≤ S
    · cases hacc : latestAt st' p S with
      | none =>
        rw [latestAt_cons_none a st' p S ha hacc] at h
        simp only [Option.some.injEq] at h
        subst h
        refine ⟨List.mem_cons_self _ _, ha.1, ha.2, ?_⟩
        intro e2 he2 hp2 ht2
        rcases List.mem_cons.mp he2 with rfl | he2'
        · exact Nat.le_refl _
        · exact absurd (latestAt_isSome_of_mem st' p S e2 he2' hp2 ht2) (by simp [hacc])
      | some emax =>
        rw [latestAt_cons_some a st' p S emax ha hacc] at h
        rcases ih emax hacc with ⟨hm2, hp2, ht2, hmax2⟩
        by_cases hlt : emax.time < a.time
        · rw [if_pos hlt] at h
          simp only [Option.some.injEq] at h
          subst h
          refine ⟨List.mem_cons_self _ _, ha.1, ha.2, ?_⟩
          intro e3 he3 hp3 ht3
          rcases List.mem_cons.mp he3 with rfl | he3'
          · exact Nat.le_refl _
          · exact Nat.le_of_lt (Nat.lt_of_le_of_lt (hmax2 e3 he3' hp3 ht3) hlt)
        · rw [if_neg hlt] at h
          simp only [Option.some.injEq] at h
          subst h
          refine ⟨List.mem_cons_of_mem _ hm2, hp2, ht2, ?_⟩
          intro e3 he3 hp3 ht3
          rcases List.mem_cons.mp he3 with rfl | he3'
          · exact Nat.le_of_not_lt hlt
          · exact hmax2 e3 he3' hp3 ht3
    · rw [latestAt_cons_skip a st' p S ha] at h
      rcases ih e h with ⟨hm2, hp2, ht2, hmax2⟩
      refine ⟨List.mem_cons_of_mem _ hm2, hp2, ht2, ?_⟩
      intro e3 he3 hp3 ht3
      rcases List.mem_cons.mp he3 with rfl | he3'
      · exact absurd ⟨hp3, ht3⟩ ha
      · exact hmax2 e3 he3' hp3 ht3

/-- C4: a tombstone at path `P` written at time `t` hides every strict
descendant of `P` whose generation time (the time of its visible entry) is
`< t` from every snapshot `t' ≥ t` (§3 invariant 4). -/
theorem tombstone_dominance (st : Store) (P D : List Nat) (t tq : Nat) (e : Entry)
    (hmem : (⟨P, t, EVal.tomb⟩ : Entry) ∈ st) (hle : t ≤ tq)
    (hdesc : strictAnc P D = true)
    (hlat : latestAt st D tq = some e) (hgen : e.time < t) :
    nodeLive st tq D = false := by
  have hhid : hiddenByAnc st D e.time tq = true := by
    simp only [hiddenByAnc, List.any_eq_true]
    refine ⟨⟨P, t, EVal.tomb⟩, hmem, ?_⟩
    simp [isOverwrite, hdesc, hgen, hle]
  simp [nodeLive, liveEntry, hlat, hhid, apply_ite Option.isSome]

/-- Concrete instance of C4: a tombstone at `[0]@5` hides the leaf
`[0,1]@3` from the snapshot at time 6. -/
theorem tombstone_dominance_witness :
    ((⟨[0], 5, EVal.tomb⟩ : Entry) ∈
        ([⟨[0], 5, EVal.tomb⟩, ⟨[0, 1], 3, EVal.pv 7 none⟩] : Store)) ∧
      (5 : Nat) ≤ 6 ∧ strictAnc [0] [0, 1] = true ∧
      latestAt [⟨[0], 5, EVal.tomb⟩, ⟨[0, 1], 3, EVal.pv 7 none⟩] [0, 1] 6
        = some ⟨[0, 1], 3, EVal.pv 7 none⟩ ∧
      (3 : Nat) < 5 ∧
      nodeLive [⟨[0], 5, EVal.tomb⟩, ⟨[0, 1], 3, EVal.pv 7 none⟩] 6 [0, 1] = false :=
  ⟨by decide, by decide, by decide, by decide, by decide,
   tombstone_dominance [⟨[0], 5, EVal.tomb⟩, ⟨[0, 1], 3, EVal.pv 7 none⟩] [0] [0, 1] 5 6
     ⟨[0, 1], 3, EVal.pv 7 none⟩ (by decide) (by decide) (by decide) (by decide)
     (by decide)⟩

/-- C7: a stored value with TTL `d` and generation time `g`, read at
snapshot `S` (its ancestor chain clean), is treated as expired — absent from
the result like a tombstone — iff `g + d ≤ S`; a value with `kMaxTtl`
(no TTL) never expires (§3 invariant 6, §4.7 step 4). -/
theorem ttl_expiry (st : Store) (S : Nat) (p : List Nat) (v g : Nat) :
    (∀ d0 : Nat, latestAt st p S = some ⟨p, g, EVal.pv v (some d0)⟩ →
      hiddenByAnc st p g S = false →
      (liveLeaf st S p v = false ↔ g + d0 ≤ S)) ∧
    (latestAt st p S = some ⟨p, g, EVal.pv v none⟩ →
      hiddenByAnc st p g S = false →
      liveLeaf st S p v = true) := by
  constructor
  · intro d0 hlat hanc
    simp only [liveLeaf, liveEntry, hlat, expiredAt, hanc]
    by_cases hexp : g + d0 ≤ S
    · simp [hexp]
    · simp [hexp]
  · intro hlat hanc
    simp [liveLeaf, liveEntry, hlat, expiredAt, hanc]

/-- Concrete instance of C7 (spec scenario S5): value 5 written at `t = 100`
with TTL 10 is expired exactly at snapshots `S ≥ 110`. -/
theorem ttl_expiry_witness :
    latestAt [⟨[0], 100, EVal.pv 5 (some 10)⟩] [0] 110
        = some ⟨[0], 100, EVal.pv 5 (some 10)⟩ ∧
      hiddenByAnc [⟨[0], 100, EVal.pv 5 (some 10)⟩] [0] 100 110 = false ∧
      (liveLeaf [⟨[0], 100, EVal.pv 5 (some 10)⟩] 110 [0] 5 = false ↔ 100 + 10 ≤ 110) :=
  ⟨by decide, by decide, (ttl_expiry _ _ _ _ _).1 10 (by decide) (by decide)⟩

/-! ### Init-marker independence (§4.6 init-marker policy, §4.7, §8.7) -/

/-- Modelled from the spec: the parallel run of §8.7 strips all object
init-marker entries; readers then fall back to the marker-free algorithm. -/
def stripMarkers (st : Store) : Store := st.filter (fun e => !(e.val == EVal.obj))

def entriesConflict (e1 e2 : Entry) : Bool :=
  e1.path == e2.path && e1.time == e2.time && !(e1.val == e2.val)

/-- Modelled from the spec: §3 invariant 5 — no two entries for the same
(path, HybridTime) with distinct values. -/
def noConflict (st : Store) : Bool :=
  st.all (fun e1 => st.all (fun e2 => !(entriesConflict e1 e2)))

/-- Modelled from the spec: the store shape the `init=Required` writer
produces (§4.6): an object init marker is written at `P@t` only when `P` was
absent, tombstoned, or primitive at write time, so every entry at or below
`P` older than `t` is covered by a tombstone at an ancestor (at or below `P`)
with time in the window `(entry.time, t]`. -/
def markerWF (st : Store) : Bool :=
  st.all (fun m =>
    st.all (fun e =>
      !(decide (m.val = EVal.obj) && isAnc m.path e.path && decide (e.time < m.time)) ||
        st.any (fun tb =>
          decide (tb.val = EVal.tomb) && isAnc tb.path e.path &&
            decide (e.time < tb.time) && decide (tb.time ≤ m.time))))

theorem isAnc_refl (p : List Nat) : isAnc p p = true := by
  induction p with
  | nil => rfl
  | cons a q ih => simp [isAnc, ih]

theorem mem_strip_iff (e : Entry) (st : Store) :
    e ∈ stripMarkers st ↔ e ∈ st ∧ ¬ (e.val = EVal.obj) := by
  simp [stripMarkers, List.mem_filter]

theorem noConflict_spec (st : Store) (h : noConflict st = true) :
    ∀ e1 ∈ st, ∀ e2 ∈ st, e1.path = e2.path → e1.time = e2.time → e1.val = e2.val := by
  intro e1 h1 e2 h2 hp ht
  simp only [noConflict, List.all_eq_true] at h
  have := h e1 h1 e2 h2
  simp only [entriesConflict, hp, ht] at this
  simpa using this

theorem markerWF_spec (st : Store) (h : markerWF st = true) :
    ∀ m ∈ st, m.val = EVal.obj → ∀ e ∈ st, isAnc m.path e.path = true →
      e.time < m.time →
      ∃ tb, tb ∈ st ∧ tb.val = EVal.tomb ∧ isAnc tb.path e.path = true ∧
        e.time < tb.time ∧ tb.time ≤ m.time := by
  intro m hm hobj e he hanc hlt
  simp only [markerWF, List.all_eq_true] at h
  have h2 := h m hm e he
  rw [hobj, hanc] at h2
  have hcond : (decide (EVal.obj = EVal.obj) && true && decide (e.time < m.time)) = true := by
    simp [hlt]
  rw [hcond] at h2
  simp only [Bool.not_true, Bool.false_or, List.any_eq_true, Bool.and_eq_true,
    decide_eq_true_eq] at h2
  obtain ⟨tb, htb, hprops⟩ := h2
  exact ⟨tb, htb, hprops.1.1.1, hprops.1.1.2, hprops.1.2, hprops.2⟩

theorem liveEntry_eq_none (st : Store) (S : Nat) (p : List Nat)
    (hlat : latestAt st p S = none) : liveEntry st S p = none := by
  unfold liveEntry
  rw [hlat]

theorem liveEntry_eq_some (st : Store) (S : Nat) (p : List Nat) (e2 : Entry)
    (hlat : latestAt st p S = some e2) :
    liveEntry st S p =
      if e2.val = EVal.tomb ∨ expiredAt e2 S = true ∨ hiddenByAnc st p e2.time S = true
      then none else some e2 := by
  unfold liveEntry
  rw [hlat]

theorem liveEntry_some_intro (st : Store) (S : Nat) (p : List Nat) (e : Entry)
    (hlat : latestAt st p S = some e) (h1 : ¬ e.val = EVal.tomb)
    (h2 : expiredAt e S = false) (h3 : hiddenByAnc st p e.time S = false) :
    liveEntry st S p = some e := by
  rw [liveEntry_eq_some st S p e hlat, if_neg]
  push_neg
  exact ⟨h1, by simp [h2], by simp [h3]⟩

theorem liveEntry_some_elim (st : Store) (S : Nat) (p : List Nat) (e : Entry)
    (h : liveEntry st S p = some e) :
    latestAt st p S = some e ∧ ¬ e.val = EVal.tomb ∧ expiredAt e S = false ∧
      hiddenByAnc st p e.time S = false := by
  cases hlat : latestAt st p S with
  | none =>
    rw [liveEntry_eq_none st S p hlat] at h
    exact Option.noConfusion h
  | some e2 =>
    rw [liveEntry_eq_some st S p e2 hlat] at h
    by_cases hc : e2.val = EVal.tomb ∨ expiredAt e2 S = true ∨
        hiddenByAnc st p e2.time S = true
    · rw [if_pos hc] at h
      exact Option.noConfusion h
    · rw [if_neg hc] at h
      injection h with h
      subst h
      push_neg at hc
      refine ⟨rfl, hc.1, ?_, ?_⟩
      · cases hx : expiredAt e2 S
        · rfl
        · exact absurd hx hc.2.1
      · cases hx : hiddenByAnc st p e2.time S
        · rfl
        · exact absurd hx hc.2.2

theorem hiddenByAnc_strip_false (st : Store) (p : List Nat) (t S : Nat)
    (h : hiddenByAnc st p t S = false) : hiddenByAnc (stripMarkers st) p t S = false := by
  cases hx : hiddenByAnc (stripMarkers st) p t S with
  | false => rfl
  | true =>
    exfalso
    simp only [hiddenByAnc, List.any_eq_true] at hx
    obtain ⟨e, he, hprops⟩ := hx
    have hmem : e ∈ st := ((mem_strip_iff e st).mp he).1
    have hcontra : hiddenByAnc st p t S = true := by
      simp only [hiddenByAnc, List.any_eq_true]
      exact ⟨e, hmem, hprops⟩
    rw [h] at hcontra
    exact Bool.noConfusion hcontra

theorem entry_ext (e1 e2 : Entry) (h1 : e1.path = e2.path) (h2 : e1.time = e2.time)
    (h3 : e1.val = e2.val) : e1 = e2 := by
  rcases e1 with ⟨a1, a2, a3⟩
  rcases e2 with ⟨b1, b2, b3⟩
  simp only at h1 h2 h3
  rw [h1, h2, h3]

theorem liveLeaf_intro (st : Store) (S : Nat) (p : List Nat) (v : Nat) (e : Entry)
    (d : Option Nat) (h : liveEntry st S p = some e) (hv : e.val = EVal.pv v d) :
    liveLeaf st S p v = true := by
  rcases e with ⟨pp, tt, vv⟩
  have hv2 : vv = EVal.pv v d := hv
  subst hv2
  unfold liveLeaf
  rw [h]
  simp

theorem liveLeaf_elim (st : Store) (S : Nat) (p : List Nat) (v : Nat)
    (h : liveLeaf st S p v = true) :
    ∃ pp tt d, liveEntry st S p = some ⟨pp, tt, EVal.pv v d⟩ := by
  unfold liveLeaf at h
  cases hle : liveEntry st S p with
  | none => rw [hle] at h; simp at h
  | some e =>
    rw [hle] at h
    rcases e with ⟨pp, tt, vv⟩
    cases vv with
    | obj => simp at h
    | tomb => simp at h
    | pv w d =>
      simp at h
      subst h
      exact ⟨pp, tt, d, rfl⟩

/-- C5 (amended): for stores satisfying the `init=Required` writer invariants
(marker coverage and unique (path, time) values), stripping the object init
markers leaves every live primitive leaf unchanged: the marker-free reader
sees exactly the same leaves. (The unamended claim — identical full results —
fails on empty objects; see the counterexample.) -/
theorem init_marker_leaf_equiv (st : Store) (S : Nat)
    (hWF : markerWF st = true) (hNC : noConflict st = true)
    (p : List Nat) (v : Nat) :
    (liveLeaf (stripMarkers st) S p v = true ↔ liveLeaf st S p v = true) := by
  constructor
  · intro h
    obtain ⟨pp, tt, d, hle⟩ := liveLeaf_elim _ _ _ _ h
    obtain ⟨hlat', htomb', hexp', hhid'⟩ := liveEntry_some_elim _ _ _ _ hle
    set e : Entry := ⟨pp, tt, EVal.pv v d⟩ with hedef
    obtain ⟨hmem', hpath', htime', hmax'⟩ := latestAt_some_spec _ _ _ _ hlat'
    have hmem : e ∈ st := ((mem_strip_iff e st).mp hmem').1
    obtain ⟨em, hem⟩ := latestAt_isSome_of_mem st p S e hmem hpath' htime'
    obtain ⟨hmm, hmp, hmt, hmmax⟩ := latestAt_some_spec _ _ _ _ hem
    have hle_time : e.time ≤ em.time := hmmax e hmem hpath' htime'
    have htt : em.time = e.time := by
      by_contra hne
      have hlt : e.time < em.time := Nat.lt_of_le_of_ne hle_time (fun hcc => hne hcc.symm)
      have hnotstrip : em ∉ stripMarkers st := by
        intro hin
        have := hmax' em hin hmp hmt
        omega
      have hobj : em.val = EVal.obj := by
        by_contra hno
        exact hnotstrip ((mem_strip_iff em st).mpr ⟨hmm, hno⟩)
      obtain ⟨tb, htbm, htbv, htbanc, htb1, htb2⟩ :=
        markerWF_spec st hWF em hmm hobj e hmem (by rw [hmp, hpath']; exact isAnc_refl p) hlt
      have htbS : tb.time ≤ S := Nat.le_trans htb2 hmt
      have htbstrip : tb ∈ stripMarkers st :=
        (mem_strip_iff tb st).mpr ⟨htbm, by rw [htbv]; intro hcc; exact EVal.noConfusion hcc⟩
      rw [hpath'] at htbanc
      by_cases htbp : tb.path = p
      · have := hmax' tb htbstrip htbp htbS
        omega
      · have hcontr : hiddenByAnc (stripMarkers st) p e.time S = true := by
          simp only [hiddenByAnc, List.any_eq_true]
          refine ⟨tb, htbstrip, ?_⟩
          simp [strictAnc, htbanc, htbp, isOverwrite, htbv, htb1, htbS]
        rw [hhid'] at hcontr
        exact Bool.noConfusion hcontr
    have hee : em = e := by
      have hv := noConflict_spec st hNC em hmm e hmem (hmp.trans hpath'.symm) htt
      exact entry_ext em e (hmp.trans hpath'.symm) htt hv
    rw [hee] at hem
    have hhid : hiddenByAnc st p e.time S = false := by
      cases hx : hiddenByAnc st p e.time S with
      | false => rfl
      | true =>
        exfalso
        simp only [hiddenByAnc, List.any_eq_true] at hx
        obtain ⟨hh, hhm, hhprops⟩ := hx
        simp only [Bool.and_eq_true, decide_eq_true_eq] at hhprops
        obtain ⟨⟨⟨hhanc, hhov⟩, hht1⟩, hht2⟩ := hhprops
        by_cases hhv : hh.val = EVal.obj
        · have hanc2 : isAnc hh.path e.path = true := by
            rw [hpath']
            simp only [strictAnc, Bool.and_eq_true] at hhanc
            exact hhanc.1
          obtain ⟨tb, htbm, htbv, htbanc, htb1, htb2⟩ :=
            markerWF_spec st hWF hh hhm hhv e hmem hanc2 hht1
          have htbS : tb.time ≤ S := Nat.le_trans htb2 hht2
          have htbstrip : tb ∈ stripMarkers st :=
            (mem_strip_iff tb st).mpr
              ⟨htbm, by rw [htbv]; intro hcc; exact EVal.noConfusion hcc⟩
          rw [hpath'] at htbanc
          by_cases htbp : tb.path = p
          · have := hmax' tb htbstrip htbp htbS
            omega
          · have hcontr : hiddenByAnc (stripMarkers st) p e.time S = true := by
              simp only [hiddenByAnc, List.any_eq_true]
              refine ⟨tb, htbstrip, ?_⟩
              simp [strictAnc, htbanc, htbp, isOverwrite, htbv, htb1, htbS]
            rw [hhid'] at hcontr
            exact Bool.noConfusion hcontr
        · have hhstrip : hh ∈ stripMarkers st := (mem_strip_iff hh st).mpr ⟨hhm, hhv⟩
          have hcontr : hiddenByAnc (stripMarkers st) p e.time S = true := by
            simp only [hiddenByAnc, List.any_eq_true]
            exact ⟨hh, hhstrip, by simp [hhanc, hhov, hht1, hht2]⟩
          rw [hhid'] at hcontr
          exact Bool.noConfusion hcontr
    exact liveLeaf_intro st S p v e d
      (liveEntry_some_intro st S p e hem htomb' hexp' hhid) rfl
  · intro h
    obtain ⟨pp, tt, d, hle⟩ := liveLeaf_elim _ _ _ _ h
    obtain ⟨hlat, htomb, hexp, hhid⟩ := liveEntry_some_elim _ _ _ _ hle
    set e : Entry := ⟨pp, tt, EVal.pv v d⟩ with hedef
    obtain ⟨hmem, hpath, htime, hmax⟩ := latestAt_some_spec _ _ _ _ hlat
    have hstrip : e ∈ stripMarkers st :=
      (mem_strip_iff e st).mpr ⟨hmem, by intro hcc; exact EVal.noConfusion hcc⟩
    obtain ⟨e2, he2⟩ := latestAt_isSome_of_mem (stripMarkers st) p S e hstrip hpath htime
    obtain ⟨hm2, hp2, ht2, hmax2⟩ := latestAt_some_spec _ _ _ _ he2
    have hm2' : e2 ∈ st := ((mem_strip_iff e2 st).mp hm2).1
    have h21 : e2.time ≤ e.time := hmax e2 hm2' hp2 ht2
    have h12 : e.time ≤ e2.time := hmax2 e hstrip hpath htime
    have htt : e2.time = e.time := Nat.le_antisymm h21 h12
    have hee : e2 = e := by
      have hv := noConflict_spec st hNC e2 hm2' e hmem (hp2.trans hpath.symm) htt
      exact entry_ext e2 e (hp2.trans hpath.symm) htt hv
    rw [hee] at he2
    exact liveLeaf_intro (stripMarkers st) S p v e d
      (liveEntry_some_intro (stripMarkers st) S p e he2 htomb hexp
        (hiddenByAnc_strip_false st p e.time S hhid)) rfl

/-- Concrete instance of the amended C5: the leaf `[0,1] = 7` written with a
Required-mode init marker at `[0]` is read identically with and without the
marker. -/
theorem init_marker_leaf_equiv_witness :
    markerWF [⟨[0], 1, EVal.obj⟩, ⟨[0, 1], 1, EVal.pv 7 none⟩] = true ∧
      noConflict [⟨[0], 1, EVal.obj⟩, ⟨[0, 1], 1, EVal.pv 7 none⟩] = true ∧
      (liveLeaf (stripMarkers [⟨[0], 1, EVal.obj⟩, ⟨[0, 1], 1, EVal.pv 7 none⟩])
          2 [0, 1] 7 = true ↔
        liveLeaf [⟨[0], 1, EVal.obj⟩, ⟨[0, 1], 1, EVal.pv 7 none⟩] 2 [0, 1] 7 = true) :=
  ⟨by decide, by decide, init_marker_leaf_equiv _ 2 (by decide) (by decide) [0, 1] 7⟩

/-- Counterexample to C5 as stated: the store produced by the Required-mode
writes `SetPrimitive([0,1], 7, t=1, Required)` (§4.6 emits the object init
marker at the absent ancestor `[0]`) followed by `DeleteSubDoc([0,1], t=2)`
satisfies the Required-writer invariants, yet `GetSubDocument([0], S=2)`
finds the document (an empty live object) with markers present and does not
find it once markers are stripped — the divergence spec scenario S4 itself
concedes as "`{}` (or document absent depending on marker policy)". -/
theorem init_marker_counterexample :
    markerWF [⟨[0], 1, EVal.obj⟩, ⟨[0, 1], 1, EVal.pv 7 none⟩,
        ⟨[0, 1], 2, EVal.tomb⟩] = true ∧
      noConflict [⟨[0], 1, EVal.obj⟩, ⟨[0, 1], 1, EVal.pv 7 none⟩,
        ⟨[0, 1], 2, EVal.tomb⟩] = true ∧
      docFound [⟨[0], 1, EVal.obj⟩, ⟨[0, 1], 1, EVal.pv 7 none⟩,
        ⟨[0, 1], 2, EVal.tomb⟩] 2 [0] = true ∧
      docFound (stripMarkers [⟨[0], 1, EVal.obj⟩, ⟨[0, 1], 1, EVal.pv 7 none⟩,
        ⟨[0, 1], 2, EVal.tomb⟩]) 2 [0] = false := by
  decide

/-! ### LockPlanner (§4.8) -/

theorem bytesLT_asymm (u v : List Nat) (h : bytesLT u v = true) : bytesLT v u = false := by
  induction u generalizing v with
  | nil =>
    cases v with
    | nil => simp [bytesLT] at h
    | cons b bs => rfl
  | cons a as ih =>
    cases v with
    | nil => simp [bytesLT] at h
    | cons b bs =>
      rcases Nat.lt_trichotomy a b with hlt | heq | hgt
      · simp [bytesLT, hlt, Nat.lt_asymm hlt, Nat.ne_of_lt hlt]
      · subst heq
        simp only [bytesLT, Nat.lt_irrefl, if_false] at h ⊢
        exact ih bs h
      · simp [bytesLT, hgt, Nat.lt_asymm hgt] at h

theorem bytesLT_trans (u v w : List Nat) (h1 : bytesLT u v = true) (h2 : bytesLT v w = true) :
    bytesLT u w = true := by
  induction u generalizing v w with
  | nil =>
    cases w with
    | nil => simp [bytesLT] at h2
    | cons c cs => rfl
  | cons a as ih =>
    cases v with
    | nil => simp [bytesLT] at h1
    | cons b bs =>
      cases w with
      | nil => simp [bytesLT] at h2
      | cons c cs =>
        by_cases hab : a < b
        · rcases Nat.lt_trichotomy b c with h' | h' | h'
          · have hac : a < c := Nat.lt_trans hab h'
            simp [bytesLT, hac]
          · subst h'; simp [bytesLT, hab]
          · simp [bytesLT, h', Nat.lt_asymm h'] at h2
        · rcases Nat.lt_trichotomy a b with h' | h' | h'
          · exact absurd h' hab
          · subst h'
            simp only [bytesLT, Nat.lt_irrefl, if_false] at h1
            rcases Nat.lt_trichotomy a c with h'' | h'' | h''
            · simp [bytesLT, h'']
            · subst h''
              simp only [bytesLT, Nat.lt_irrefl, if_false] at h2 ⊢
              exact ih bs cs h1 h2
            · simp [bytesLT, h'', Nat.lt_asymm h''] at h2
          · simp [bytesLT, h', Nat.lt_asymm h'] at h1

/-- Modelled from the spec: the two lock modes (§4.8). -/
inductive LockMode where
  | shared : LockMode
  | exclusive : LockMode
deriving DecidableEq, Repr

/-- A (encoded path, mode) lock requirement reported by a doc-operation. -/
abbrev LockReq := List Nat × LockMode

/-- Insert a path into a bytewise-sorted deduplicated path list. -/
def insertPath (p : List Nat) : List (List Nat) → List (List Nat)
  | [] => [p]
  | q :: rest =>
    if p = q then q :: rest
    else if bytesLT p q then p :: q :: rest
    else q :: insertPath p rest

/-- The sorted deduplicated list of all requested paths. -/
def sortedPaths (reqs : List LockReq) : List (List Nat) :=
  reqs.foldr (fun r acc => insertPath r.1 acc) []

/-- Modelled from the spec: PrepareDocWriteTransaction's lock plan (§4.8,
docdb.h lines 152-174): gather all (encoded_path, mode) pairs of all
operations, group by path promoting to exclusive when any request for the
path is exclusive, sort bytewise, deduplicate. -/
def lockPlan (ops : List (List LockReq)) : List LockReq :=
  let reqs := ops.foldr (· ++ ·) []
  (sortedPaths reqs).map (fun p =>
    (p, if reqs.any (fun r => decide (r.1 = p) && decide (r.2 = LockMode.exclusive))
        then LockMode.exclusive else LockMode.shared))

/-- Strictly-bytewise-sorted path lists (strictness makes them
duplicate-free). -/
def pathsSorted : List (List Nat) → Bool
  | [] => true
  | [_] => true
  | a :: b :: r => bytesLT a b && pathsSorted (b :: r)

theorem pathsSorted_cons (a : List Nat) (l : List (List Nat))
    (h : pathsSorted (a :: l) = true) :
    pathsSorted l = true ∧ ∀ x ∈ l, bytesLT a x = true := by
  induction l generalizing a with
  | nil => exact ⟨rfl, by simp⟩
  | cons b bs ih =>
    simp only [pathsSorted, Bool.and_eq_true] at h
    obtain ⟨hab, hrest⟩ := h
    obtain ⟨_, hall⟩ := ih b hrest
    refine ⟨hrest, ?_⟩
    intro x hx
    rcases List.mem_cons.mp hx with rfl | hx'
    · exact hab
    · exact bytesLT_trans _ _ _ hab (hall x hx')

theorem pathsSorted_eq_of_mem_iff (l1 : List (List Nat)) :
    ∀ l2 : List (List Nat), pathsSorted l1 = true → pathsSorted l2 = true →
      (∀ x, x ∈ l1 ↔ x ∈ l2) → l1 = l2 := by
  induction l1 with
  | nil =>
    intro l2 _ _ hm
    cases l2 with
    | nil => rfl
    | cons b bs => exact absurd ((hm b).mpr (List.mem_cons_self b bs)) (by simp)
  | cons a as ih =>
    intro l2 h1 h2 hm
    cases l2 with
    | nil => exact absurd ((hm a).mp (List.mem_cons_self a as)) (by simp)
    | cons b bs =>
      obtain ⟨hs1, hall1⟩ := pathsSorted_cons a as h1
      obtain ⟨hs2, hall2⟩ := pathsSorted_cons b bs h2
      have hab : a = b := by
        have ha2 : a ∈ b :: bs := (hm a).mp (List.mem_cons_self a as)
        have hb1 : b ∈ a :: as := (hm b).mpr (List.mem_cons_self b bs)
        rcases List.mem_cons.mp ha2 with h' | h'
        · exact h'
        · rcases List.mem_cons.mp hb1 with h'' | h''
          · exact h''.symm
          · have hba := hall2 a h'
            have hab' := hall1 b h''
            have hasym := bytesLT_asymm _ _ hab'
            rw [hba] at hasym
            exact Bool.noConfusion hasym
      subst hab
      have hmm : ∀ x, x ∈ as ↔ x ∈ bs := by
        intro x
        constructor
        · intro hx
          rcases List.mem_cons.mp ((hm x).mp (List.mem_cons_of_mem a hx)) with rfl | h'
          · have hir := hall1 x hx
            rw [bytesLT_irrefl] at hir
            exact Bool.noConfusion hir
          · exact h'
        · intro hx
          rcases List.mem_cons.mp ((hm x).mpr (List.mem_cons_of_mem a hx)) with rfl | h'
          · have hir := hall2 x hx
            rw [bytesLT_irrefl] at hir
            exact Bool.noConfusion hir
          · exact h'
      rw [ih bs hs1 hs2 hmm]

theorem insertPath_mem (p : List Nat) (l : List (List Nat)) (x : List Nat) :
    x ∈ insertPath p l ↔ x = p ∨ x ∈ l := by
  induction l with
  | nil => simp [insertPath]
  | cons q rest ih =>
    simp only [insertPath]
    by_cases hpq : p = q
    · subst hpq
      rw [if_pos rfl]
      simp only [List.mem_cons]
      tauto
    · rw [if_neg hpq]
      by_cases hlt : bytesLT p q = true
      · rw [if_pos hlt]
        simp only [List.mem_cons]
        try tauto
      · rw [if_neg hlt]
        simp only [List.mem_cons, ih]
        try tauto

theorem insertPath_sorted (p : List Nat) (l : List (List Nat))
    (h : pathsSorted l = true) : pathsSorted (insertPath p l) = true := by
  induction l with
  | nil => rfl
  | cons q rest ih =>
    simp only [insertPath]
    by_cases hpq : p = q
    · subst hpq
      rw [if_pos rfl]
      exact h
    · rw [if_neg hpq]
      by_cases hlt : bytesLT p q = true
      · rw [if_pos hlt]
        simp [pathsSorted, hlt, h]
      · rw [if_neg hlt]
        have hqp : bytesLT q p = true := by
          rcases bytesLT_trichotomy p q with h' | h' | h'
          · exact absurd h' hpq
          · exact absurd h' hlt
          · exact h'
        obtain ⟨hrest, hall⟩ := pathsSorted_cons q rest h
        have hsub := ih hrest
        cases hins : insertPath p rest with
        | nil => rfl
        | cons r rs =>
          have hqr : bytesLT q r = true := by
            have hrmem : r ∈ insertPath p rest := by
              rw [hins]
              exact List.mem_cons_self r rs
            rcases (insertPath_mem p rest r).mp hrmem with rfl | hr'
            · exact hqp
            · exact hall r hr'
          rw [hins] at hsub
          simp [pathsSorted, hqr, hsub]

theorem sortedPaths_sorted (reqs : List LockReq) :
    pathsSorted (sortedPaths reqs) = true := by
  induction reqs with
  | nil => rfl
  | cons r rest ih => exact insertPath_sorted r.1 _ ih

theorem sortedPaths_mem (reqs : List LockReq) (x : List Nat) :
    x ∈ sortedPaths reqs ↔ ∃ m, (x, m) ∈ reqs := by
  induction reqs with
  | nil => simp [sortedPaths]
  | cons r rest ih =>
    rcases r with ⟨rp, rm⟩
    show x ∈ insertPath rp (sortedPaths rest) ↔ _
    rw [insertPath_mem]
    simp only [List.mem_cons, ih]
    constructor
    · rintro (rfl | ⟨m, hm⟩)
      · exact ⟨rm, Or.inl rfl⟩
      · exact ⟨m, Or.inr hm⟩
    · rintro ⟨m, hm | hm⟩
      · injection hm with h1 h2
        exact Or.inl h1
      · exact Or.inr ⟨m, hm⟩

theorem mem_foldr_append (ops : List (List LockReq)) (r : LockReq) :
    r ∈ ops.foldr (· ++ ·) [] ↔ ∃ op ∈ ops, r ∈ op := by
  induction ops with
  | nil => simp
  | cons o rest ih => simp [List.mem_append, ih]

theorem any_excl_iff (reqs : List LockReq) (p : List Nat) :
    (reqs.any (fun r => decide (r.1 = p) && decide (r.2 = LockMode.exclusive)) = true) ↔
      (p, LockMode.exclusive) ∈ reqs := by
  rw [List.any_eq_true]
  constructor
  · rintro ⟨r, hr, hprops⟩
    simp only [Bool.and_eq_true, decide_eq_true_eq] at hprops
    rcases r with ⟨rp, rm⟩
    simp only at hprops
    rw [hprops.1, hprops.2] at hr
    exact hr
  · intro hr
    exact ⟨(p, LockMode.exclusive), hr, by simp⟩

theorem lockPlan_mem (ops : List (List LockReq)) (p : List Nat) (m : LockMode) :
    ((p, m) ∈ lockPlan ops ↔
      p ∈ sortedPaths (ops.foldr (· ++ ·) []) ∧
        m = (if (ops.foldr (· ++ ·) []).any
              (fun r => decide (r.1 = p) && decide (r.2 = LockMode.exclusive))
            then LockMode.exclusive else LockMode.shared)) := by
  simp only [lockPlan, List.mem_map]
  constructor
  · rintro ⟨q, hq, heq⟩
    injection heq with h1 h2
    subst h1
    exact ⟨hq, h2.symm⟩
  · rintro ⟨hp, hm⟩
    exact ⟨p, hp, by rw [← hm]⟩

theorem perm_foldr_append (ops1 ops2 : List (List LockReq)) (h : ops1.Perm ops2) :
    (ops1.foldr (· ++ ·) []).Perm (ops2.foldr (· ++ ·) []) := by
  induction h with
  | nil => exact List.Perm.refl _
  | cons x h ih => exact ih.append_left x
  | swap x y l =>
    simp only [List.foldr]
    rw [← List.append_assoc, ← List.append_assoc]
    exact List.perm_append_comm.append_right _
  | trans h1 h2 ih1 ih2 => exact ih1.trans ih2

theorem any_perm_eq (l1 l2 : List LockReq) (h : l1.Perm l2) (f : LockReq → Bool) :
    l1.any f = l2.any f := by
  cases hx : l2.any f with
  | true =>
    simp only [List.any_eq_true] at hx ⊢
    obtain ⟨x, hx1, hx2⟩ := hx
    exact ⟨x, h.mem_iff.mpr hx1, hx2⟩
  | false =>
    cases hy : l1.any f with
    | false => rfl
    | true =>
      exfalso
      simp only [List.any_eq_true] at hy
      obtain ⟨x, hx1, hx2⟩ := hy
      have hcc : l2.any f = true := List.any_eq_true.mpr ⟨x, h.mem_iff.mp hx1, hx2⟩
      rw [hx] at hcc
      exact Bool.noConfusion hcc

theorem mode_eq_excl_iff (b : Bool) :
    (LockMode.exclusive = if b then LockMode.exclusive else LockMode.shared) ↔ b = true := by
  cases b <;> simp

theorem mode_eq_shared_iff (b : Bool) :
    (LockMode.shared = if b then LockMode.exclusive else LockMode.shared) ↔ b = false := by
  cases b <;> simp

/-- C6: the lock plan returned by PrepareDocWriteTransaction is the
bytewise-sorted deduplicated list of requested lock paths, each promoted to
exclusive exactly when some operation requests it exclusively, and the
output is identical under every permutation of the input operations
(docdb.h lines 152-174, §4.8). -/
theorem lock_plan_correct (ops : List (List LockReq)) :
    pathsSorted ((lockPlan ops).map Prod.fst) = true ∧
      (∀ p : List Nat,
        ((p, LockMode.exclusive) ∈ lockPlan ops ↔
          (∃ op ∈ ops, ∃ m, (p, m) ∈ op) ∧ (∃ op ∈ ops, (p, LockMode.exclusive) ∈ op)) ∧
        ((p, LockMode.shared) ∈ lockPlan ops ↔
          (∃ op ∈ ops, ∃ m, (p, m) ∈ op) ∧ ¬ (∃ op ∈ ops, (p, LockMode.exclusive) ∈ op))) ∧
      (∀ ops2 : List (List LockReq), ops.Perm ops2 → lockPlan ops2 = lockPlan ops) := by
  refine ⟨?_, ?_, ?_⟩
  · have hmap : (lockPlan ops).map Prod.fst = sortedPaths (ops.foldr (· ++ ·) []) := by
      simp only [lockPlan, List.map_map]
      exact List.map_id _
    rw [hmap]
    exact sortedPaths_sorted _
  · intro p
    have hpres : p ∈ sortedPaths (ops.foldr (· ++ ·) []) ↔
        (∃ op ∈ ops, ∃ m, (p, m) ∈ op) := by
      rw [sortedPaths_mem]
      constructor
      · rintro ⟨m, hm⟩
        obtain ⟨op, hop, hin⟩ := (mem_foldr_append ops (p, m)).mp hm
        exact ⟨op, hop, m, hin⟩
      · rintro ⟨op, hop, m, hin⟩
        exact ⟨m, (mem_foldr_append ops (p, m)).mpr ⟨op, hop, hin⟩⟩
    have hexc : ((ops.foldr (· ++ ·) []).any
          (fun r => decide (r.1 = p) && decide (r.2 = LockMode.exclusive)) = true) ↔
        (∃ op ∈ ops, (p, LockMode.exclusive) ∈ op) := by
      rw [any_excl_iff]
      exact mem_foldr_append ops (p, LockMode.exclusive)
    constructor
    · rw [lockPlan_mem, hpres, mode_eq_excl_iff, hexc]
    · rw [lockPlan_mem, hpres, mode_eq_shared_iff]
      have : ((ops.foldr (· ++ ·) []).any
            (fun r => decide (r.1 = p) && decide (r.2 = LockMode.exclusive)) = false) ↔
          ¬ (∃ op ∈ ops, (p, LockMode.exclusive) ∈ op) := by
        rw [← hexc]
        cases (ops.foldr (· ++ ·) []).any
            (fun r => decide (r.1 = p) && decide (r.2 = LockMode.exclusive)) <;> simp
      rw [this]
  · intro ops2 hperm
    have hreqs : (ops.foldr (· ++ ·) []).Perm (ops2.foldr (· ++ ·) []) :=
      perm_foldr_append ops ops2 hperm
    have hpaths : sortedPaths (ops2.foldr (· ++ ·) []) =
        sortedPaths (ops.foldr (· ++ ·) []) := by
      apply pathsSorted_eq_of_mem_iff _ _ (sortedPaths_sorted _) (sortedPaths_sorted _)
      intro x
      rw [sortedPaths_mem, sortedPaths_mem]
      constructor
      · rintro ⟨m, hm⟩
        exact ⟨m, hreqs.mem_iff.mpr hm⟩
      · rintro ⟨m, hm⟩
        exact ⟨m, hreqs.mem_iff.mp hm⟩
    simp only [lockPlan]
    rw [hpaths]
    apply List.map_congr_left
    intro p hp
    rw [any_perm_eq _ _ hreqs]

/-- Concrete instance of C6 (spec scenario S6 shape): the plan for the batch
`{a.b = {}, a.b.c = 1}` is sorted with promoted modes, and reordering the two
operations leaves the plan byte-identical. -/
theorem lock_plan_correct_witness :
    ([[([0], LockMode.shared), ([0, 1], LockMode.exclusive)],
        [([0], LockMode.shared), ([0, 1], LockMode.shared),
          ([0, 1, 2], LockMode.exclusive)]] : List (List LockReq)).Perm
      [[([0], LockMode.shared), ([0, 1], LockMode.shared),
          ([0, 1, 2], LockMode.exclusive)],
        [([0], LockMode.shared), ([0, 1], LockMode.exclusive)]] ∧
      lockPlan [[([0], LockMode.shared), ([0, 1], LockMode.shared),
          ([0, 1, 2], LockMode.exclusive)],
        [([0], LockMode.shared), ([0, 1], LockMode.exclusive)]]
        = lockPlan [[([0], LockMode.shared), ([0, 1], LockMode.exclusive)],
        [([0], LockMode.shared), ([0, 1], LockMode.shared),
          ([0, 1, 2], LockMode.exclusive)]] ∧
      lockPlan [[([0], LockMode.shared), ([0, 1], LockMode.exclusive)],
        [([0], LockMode.shared), ([0, 1], LockMode.shared),
          ([0, 1, 2], LockMode.exclusive)]]
        = [([0], LockMode.shared), ([0, 1], LockMode.exclusive),
          ([0, 1, 2], LockMode.exclusive)] :=
  ⟨by decide, (lock_plan_correct _).2.2 _ (by decide), by decide⟩

/-! ### Write-batch construction failure modes (§4.6, §7) -/

/-- Modelled from the spec: the error kinds of §7 that batch construction
can raise. -/
inductive DocDBError where
  | invariantViolation : DocDBError
  | badArgument : DocDBError
  | corruptKey : DocDBError
deriving DecidableEq, Repr

/-- Two put entries conflict when they share (path, HybridTime) but carry
distinct values (§3 invariant 5). -/
def entriesConflictB (e1 e2 : Entry) : Bool :=
  decide (e1.path = e2.path) && decide (e1.time = e2.time) && !(decide (e1.val = e2.val))

/-- Modelled from the spec: appending one put to the batch under
construction; seeing the same (path, HybridTime) with a conflicting value is
an `InvariantViolation`, fatal to the batch (§4.6 failure modes). -/
def batchAdd (b : List Entry) (e : Entry) : Except DocDBError (List Entry) :=
  if b.any (entriesConflictB e) then Except.error DocDBError.invariantViolation
  else Except.ok (b ++ [e])

/-- Modelled from the spec: building the put batch from the sequence of
emitted entries; an error aborts construction. -/
def buildBatch (es : List Entry) : Except DocDBError (List Entry) :=
  es.foldl
    (fun acc e =>
      match acc with
      | Except.error er => Except.error er
      | Except.ok b => batchAdd b e)
    (Except.ok [])

/-- Modelled from the spec: a failed batch is never flushed — the store is
left unchanged (§7: partial batches must never be flushed). -/
def flushBatch (st : Store) (r : Except DocDBError (List Entry)) : Store :=
  match r with
  | Except.ok b => st ++ b
  | Except.error _ => st

/-- No entry conflicts with a later entry of the sequence. -/
def conflictFree : List Entry → Bool
  | [] => true
  | e :: rest => !(rest.any (entriesConflictB e)) && conflictFree rest

theorem entriesConflictB_comm (e1 e2 : Entry) :
    entriesConflictB e1 e2 = entriesConflictB e2 e1 := by
  simp only [entriesConflictB]
  by_cases h1 : e1.path = e2.path <;> by_cases h2 : e1.time = e2.time <;>
    by_cases h3 : e1.val = e2.val <;>
    simp [h1, h2, h3, Ne.symm, eq_comm]

theorem buildBatch_error_absorb (es : List Entry) (er : DocDBError) :
    es.foldl
      (fun acc e =>
        match acc with
        | Except.error er2 => Except.error er2
        | Except.ok b => batchAdd b e)
      (Except.error er) = Except.error er := by
  induction es with
  | nil => rfl
  | cons e rest ih => exact ih

theorem buildBatch_aux_shape (es : List Entry) (b : List Entry) :
    (∃ b2, es.foldl
        (fun acc e =>
          match acc with
          | Except.error er2 => Except.error er2
          | Except.ok b => batchAdd b e)
        (Except.ok b) = Except.ok b2) ∨
      es.foldl
        (fun acc e =>
          match acc with
          | Except.error er2 => Except.error er2
          | Except.ok b => batchAdd b e)
        (Except.ok b) = Except.error DocDBError.invariantViolation := by
  induction es generalizing b with
  | nil => exact Or.inl ⟨b, rfl⟩
  | cons e rest ih =>
    simp only [List.foldl]
    by_cases hc : b.any (entriesConflictB e) = true
    · right
      have : batchAdd b e = Except.error DocDBError.invariantViolation := by
        simp [batchAdd, hc]
      rw [this]
      exact buildBatch_error_absorb rest _
    · have : batchAdd b e = Except.ok (b ++ [e]) := by
        simp only [batchAdd]
        rw [if_neg hc]
      rw [this]
      exact ih (b ++ [e])

theorem buildBatch_ok_conflictFree (es : List Entry) :
    ∀ b b2, es.foldl
        (fun acc e =>
          match acc with
          | Except.error er2 => Except.error er2
          | Except.ok b => batchAdd b e)
        (Except.ok b) = Except.ok b2 →
      (∀ e1 ∈ b, ∀ e2 ∈ es, entriesConflictB e1 e2 = false) ∧ conflictFree es = true := by
  induction es with
  | nil => intro b b2 _; exact ⟨by simp, rfl⟩
  | cons e rest ih =>
    intro b b2 h
    simp only [List.foldl] at h
    by_cases hc : b.any (entriesConflictB e) = true
    · exfalso
      have hb : batchAdd b e = Except.error DocDBError.invariantViolation := by
        simp [batchAdd, hc]
      rw [hb, buildBatch_error_absorb] at h
      exact Except.noConfusion h
    · have hb : batchAdd b e = Except.ok (b ++ [e]) := by
        simp only [batchAdd]
        rw [if_neg hc]
      rw [hb] at h
      obtain ⟨hcross, hcf⟩ := ih (b ++ [e]) b2 h
      have hnoc : ∀ e1 ∈ b, entriesConflictB e1 e = false := by
        intro e1 he1
        cases hx : entriesConflictB e1 e with
        | false => rfl
        | true =>
          exfalso
          have : b.any (entriesConflictB e) = true := by
            rw [List.any_eq_true]
            exact ⟨e1, he1, by rw [entriesConflictB_comm]; exact hx⟩
          exact hc this
      constructor
      · intro e1 he1 e2 he2
        rcases List.mem_cons.mp he2 with rfl | he2'
        · exact hnoc e1 he1
        · exact hcross e1 (List.mem_append_left _ he1) e2 he2'
      · simp only [conflictFree, Bool.and_eq_true]
        constructor
        · cases hx : rest.any (entriesConflictB e) with
          | false => rfl
          | true =>
            exfalso
            rw [List.any_eq_true] at hx
            obtain ⟨e2, he2, hx2⟩ := hx
            have := hcross e (List.mem_append_right _ (List.mem_cons_self e [])) e2 he2
            rw [this] at hx2
            exact Bool.noConfusion hx2
        · exact hcf

/-- C8: if the emitted entries contain the same (path, HybridTime) with
conflicting values, batch construction fails with `InvariantViolation` and
the batch is never flushed: the store is left unchanged (§4.6 failure modes,
§7; the hazard docdb.h lines 231-232 flag). -/
theorem batch_conflict_rejected (es : List Entry) (h : conflictFree es = false) :
    buildBatch es = Except.error DocDBError.invariantViolation ∧
      ∀ st : Store, flushBatch st (buildBatch es) = st := by
  have hmain : buildBatch es = Except.error DocDBError.invariantViolation := by
    rcases buildBatch_aux_shape es [] with ⟨b2, hb2⟩ | herr
    · exfalso
      have := (buildBatch_ok_conflictFree es [] b2 hb2).2
      rw [h] at this
      exact Bool.noConfusion this
    · exact herr
  refine ⟨hmain, ?_⟩
  intro st
  rw [hmain]
  rfl

/-- Concrete instance of C8: two puts at the same path and time 1 with
values 1 and 2 abort the batch and leave the store untouched. -/
theorem batch_conflict_rejected_witness :
    conflictFree [⟨[0], 1, EVal.pv 1 none⟩, ⟨[0], 1, EVal.pv 2 none⟩] = false ∧
      buildBatch [⟨[0], 1, EVal.pv 1 none⟩, ⟨[0], 1, EVal.pv 2 none⟩]
        = Except.error DocDBError.invariantViolation ∧
      flushBatch [⟨[9], 0, EVal.pv 3 none⟩]
          (buildBatch [⟨[0], 1, EVal.pv 1 none⟩, ⟨[0], 1, EVal.pv 2 none⟩])
        = [⟨[9], 0, EVal.pv 3 none⟩] :=
  ⟨by decide,
   (batch_conflict_rejected _ (by decide)).1,
   (batch_conflict_rejected _ (by decide)).2 _⟩

end DocDBSpec

namespace YbSql

/-! ### PTInsertStmt::Analyze (src/yb/sql/ptree/pt_insert.cc, lines 59-169)

Embedded from the source. The surrounding machinery is abstracted: column
names are `Nat` identifiers, expression types are `Nat` type identifiers,
`SemContextM` carries `GetColumnDesc` and `IsConvertible` as functions, and
the early `RETURN_NOT_OK` calls (PTDmlStmt::Analyze, relation analysis,
table lookup; and the trailing if/using-clause analysis) are modelled as
success flags whose failure yields the generic `analysisError`. -/

/-- The error codes `PTInsertStmt::Analyze` can produce, plus a generic code
standing for any error propagated from a nested analysis call. -/
inductive ErrorCode where
  | tooFewArguments : ErrorCode
  | tooManyArguments : ErrorCode
  | undefinedColumn : ErrorCode
  | datatypeMismatch : ErrorCode
  | duplicateColumn : ErrorCode
  | missingArgumentForPrimaryKey : ErrorCode
  | nullArgumentForPrimaryKey : ErrorCode
  | analysisError : ErrorCode
deriving DecidableEq, Repr

/-- A PTExpr as `Analyze` consumes it: whether it is a bind variable
(`ExprOperator::kBindVar`), whether `is_null()` holds, its type id, and
whether its own `Analyze`/`CheckRhsExpr` calls (lines 76-77) succeed. -/
structure PTExprM where
  isBindVar : Bool
  isNull : Bool
  typeId : Nat
  analyzeOk : Bool
deriving DecidableEq, Repr

/-- A column descriptor: its index (`ColumnDesc::index()`) and YQL type. -/
structure ColumnTag where
  index : Nat
  typeId : Nat
deriving DecidableEq, Repr

/-- The semantic-context operations `Analyze` calls: `GetColumnDesc` (line
96) and `IsConvertible` (lines 108, 139). -/
structure SemContextM where
  getColumnDesc : Nat → Option ColumnTag
  isConvertible : PTExprM → Nat → Bool

/-- The looked-up table: its columns (`table_columns_`) in order, and
`num_key_columns()`. -/
structure TableM where
  tableColumns : List ColumnTag
  numKeyColumns : Nat

/-- The statement under analysis: optional explicit column list (`columns_`,
as name ids), the `VALUES` tuples (each a list of expressions), and success
flags for the leading (lines 61-66) and trailing (lines 163-166) analysis
steps. -/
structure PTInsertStmtM where
  columns : Option (List Nat)
  valueTuples : List (List PTExprM)
  preludeOk : Bool
  ifUsingOk : Bool

/-- A `column_args_` slot: descriptor and argument expression. -/
abbrev ColumnArg := ColumnTag × PTExprM

/-- Lines 75-78: analyze each expression of the first tuple, propagating the
first failure. -/
def analyzeExprs : List PTExprM → Except ErrorCode Unit
  | [] => Except.ok ()
  | e :: rest =>
    if e.analyzeOk then analyzeExprs rest else Except.error ErrorCode.analysisError

/-- Lines 93-119: the explicit-column-list loop. Walks names and expressions
together: looks up each column (UNDEFINED_COLUMN when absent), binds or
checks convertibility (DATATYPE_MISMATCH), rejects duplicates
(DUPLICATE_COLUMN), and initializes `column_args_[col_desc->index()]`. -/
def initArgsNamed (ctx : SemContextM) :
    List (Option ColumnArg) → List Nat → List PTExprM →
      Except ErrorCode (List (Option ColumnArg))
  | args, [], _ => Except.ok args
  | args, _ :: _, [] => Except.ok args
  | args, name :: names, expr :: rest =>
    match ctx.getColumnDesc name with
    | none => Except.error ErrorCode.undefinedColumn
    | some cd =>
      if expr.isBindVar = false ∧ ctx.isConvertible expr cd.typeId = false then
        Except.error ErrorCode.datatypeMismatch
      else if (args.getD cd.index none).isSome then
        Except.error ErrorCode.duplicateColumn
      else initArgsNamed ctx (args.set cd.index (some (cd, expr))) names rest

/-- Lines 130-147: the positional loop used when no column list is given:
`column_args_[idx]` is initialized from `table_columns_[idx]` after the
bind-variable / convertibility check. -/
def initArgsPositional (ctx : SemContextM) :
    List (Option ColumnArg) → Nat → List ColumnTag → List PTExprM →
      Except ErrorCode (List (Option ColumnArg))
  | args, _, _, [] => Except.ok args
  | args, _, [], _ :: _ => Except.ok args
  | args, idx, cd :: cds, expr :: rest =>
    if expr.isBindVar = false ∧ ctx.isConvertible expr cd.typeId = false then
      Except.error ErrorCode.datatypeMismatch
    else initArgsPositional ctx (args.set idx (some (cd, expr))) (idx + 1) cds rest

/-- Lines 150-160: every primary-key column (indexes `0..num_keys-1`) must
have an initialized, non-null argument; at each index the missing check
precedes the null check. -/
def checkPrimaryKeys : Nat → List (Option ColumnArg) → Except ErrorCode Unit
  | 0, _ => Except.ok ()
  | _ + 1, [] => Except.ok ()
  | k + 1, arg :: rest =>
    match arg with
    | none => Except.error ErrorCode.missingArgumentForPrimaryKey
    | some a =>
      if a.2.isNull then Except.error ErrorCode.nullArgumentForPrimaryKey
      else checkPrimaryKeys k rest

/-- `PTInsertStmt::Analyze` (lines 59-169), returning the final
`column_args_` on success. -/
def insertAnalyze (ctx : SemContextM) (tbl : TableM) (stmt : PTInsertStmtM) :
    Except ErrorCode (List (Option ColumnArg)) :=
  if stmt.preludeOk = false then Except.error ErrorCode.analysisError
  else
    match stmt.valueTuples with
    | [] => Except.error ErrorCode.tooFewArguments
    | exprs :: _ =>
      match analyzeExprs exprs with
      | Except.error e => Except.error e
      | Except.ok _ =>
        let numCols := tbl.tableColumns.length
        let args0 : List (Option ColumnArg) := List.replicate numCols none
        let argsRes :=
          match stmt.columns with
          | some names =>
            if names.length ≠ exprs.length then
              if exprs.length < names.length then Except.error ErrorCode.tooFewArguments
              else Except.error ErrorCode.tooManyArguments
            else initArgsNamed ctx args0 names exprs
          | none =>
            if exprs.length ≠ numCols then
              if numCols < exprs.length then Except.error ErrorCode.tooManyArguments
              else Except.error ErrorCode.tooFewArguments
            else initArgsPositional ctx args0 0 tbl.tableColumns exprs
        match argsRes with
        | Except.error e => Except.error e
        | Except.ok args =>
          match checkPrimaryKeys tbl.numKeyColumns args with
          | Except.error e => Except.error e
          | Except.ok _ =>
            if stmt.ifUsingOk then Except.ok args
            else Except.error ErrorCode.analysisError

theorem analyzeExprs_ok (exprs : List PTExprM) (h : ∀ e ∈ exprs, e.analyzeOk = true) :
    analyzeExprs exprs = Except.ok () := by
  induction exprs with
  | nil => rfl
  | cons e rest ih =>
    have he : e.analyzeOk = true := h e (List.mem_cons_self e rest)
    simp only [analyzeExprs, he, if_true]
    exact ih (fun x hx => h x (List.mem_cons_of_mem e hx))

/-- C9: the value-count checks of `PTInsertStmt::Analyze` (pt_insert.cc
lines 70-91 and 120-128): zero tuples give TOO_FEW_ARGUMENTS; with an
explicit column list, more names than expressions give TOO_FEW_ARGUMENTS and
fewer give TOO_MANY_ARGUMENTS; without a column list, more expressions than
table columns give TOO_MANY_ARGUMENTS and fewer give TOO_FEW_ARGUMENTS; and
a successful analysis implies the counts match. -/
theorem insert_analyze_arity (ctx : SemContextM) (tbl : TableM) (stmt : PTInsertStmtM)
    (hpre : stmt.preludeOk = true) :
    (stmt.valueTuples = [] →
      insertAnalyze ctx tbl stmt = Except.error ErrorCode.tooFewArguments) ∧
    (∀ exprs rest names, stmt.valueTuples = exprs :: rest →
      (∀ e ∈ exprs, e.analyzeOk = true) → stmt.columns = some names →
      ((exprs.length < names.length →
          insertAnalyze ctx tbl stmt = Except.error ErrorCode.tooFewArguments) ∧
        (names.length < exprs.length →
          insertAnalyze ctx tbl stmt = Except.error ErrorCode.tooManyArguments))) ∧
    (∀ exprs rest, stmt.valueTuples = exprs :: rest →
      (∀ e ∈ exprs, e.analyzeOk = true) → stmt.columns = none →
      ((tbl.tableColumns.length < exprs.length →
          insertAnalyze ctx tbl stmt = Except.error ErrorCode.tooManyArguments) ∧
        (exprs.length < tbl.tableColumns.length →
          insertAnalyze ctx tbl stmt = Except.error ErrorCode.tooFewArguments))) ∧
    (∀ args, insertAnalyze ctx tbl stmt = Except.ok args →
      ∃ exprs rest, stmt.valueTuples = exprs :: rest ∧
        (∀ names, stmt.columns = some names → names.length = exprs.length) ∧
        (stmt.columns = none → exprs.length = tbl.tableColumns.length)) := by
  rcases stmt with ⟨cols, tuples, pre, ifu⟩
  simp only at hpre
  subst hpre
  refine ⟨?_, ?_, ?_, ?_⟩
  · intro h0
    simp only at h0
    subst h0
    simp [insertAnalyze]
  · intro exprs rest names htup hana hcols
    simp only at htup hcols
    subst htup
    subst hcols
    have hae : analyzeExprs exprs = Except.ok () := analyzeExprs_ok exprs hana
    constructor
    · intro hlt
      have hne : names.length ≠ exprs.length := by omega
      simp [insertAnalyze, hae, hne, hlt]
    · intro hlt
      have hne : names.length ≠ exprs.length := by omega
      have hnl : ¬ (exprs.length < names.length) := by omega
      simp [insertAnalyze, hae, hne, hnl]
  · intro exprs rest htup hana hcols
    simp only at htup hcols
    subst htup
    subst hcols
    have hae : analyzeExprs exprs = Except.ok () := analyzeExprs_ok exprs hana
    constructor
    · intro hlt
      have hne : exprs.length ≠ tbl.tableColumns.length := by omega
      simp [insertAnalyze, hae, hne, hlt]
    · intro hlt
      have hne : exprs.length ≠ tbl.tableColumns.length := by omega
      have hnl : ¬ (tbl.tableColumns.length < exprs.length) := by omega
      simp [insertAnalyze, hae, hne, hnl]
  · intro args h
    rcases tuples with _ | ⟨exprs, rest⟩
    · simp [insertAnalyze] at h
    · refine ⟨exprs, rest, rfl, ?_, ?_⟩
      · intro names hcols
        simp only at hcols
        subst hcols
        by_contra hne
        cases hae : analyzeExprs exprs with
        | error e => simp [insertAnalyze, hae] at h
        | ok u =>
          cases u
          by_cases hlt : exprs.length < names.length
          · simp [insertAnalyze, hae, hne, hlt] at h
          · simp [insertAnalyze, hae, hne, hlt] at h
      · intro hcols
        simp only at hcols
        subst hcols
        by_contra hne
        cases hae : analyzeExprs exprs with
        | error e => simp [insertAnalyze, hae] at h
        | ok u =>
          cases u
          by_cases hlt : tbl.tableColumns.length < exprs.length
          · simp [insertAnalyze, hae, hne, hlt] at h
          · simp [insertAnalyze, hae, hne, hlt] at h

/-- Concrete instance of C9: an INSERT with an empty VALUES clause is
rejected with TOO_FEW_ARGUMENTS. -/
theorem insert_analyze_arity_witness :
    (⟨none, [], true, true⟩ : PTInsertStmtM).preludeOk = true ∧
      insertAnalyze ⟨fun _ => none, fun _ _ => true⟩ ⟨[], 0⟩ ⟨none, [], true, true⟩
        = Except.error ErrorCode.tooFewArguments :=
  ⟨rfl, (insert_analyze_arity ⟨fun _ => none, fun _ _ => true⟩ ⟨[], 0⟩
      ⟨none, [], true, true⟩ rfl).1 rfl⟩

/-- Counterexample to C10 as stated: table with two primary-key columns
(ids 0 and 1), INSERT naming only column 0 with a NULL argument. Column 1 has
no associated argument, yet `Analyze` returns NULL_ARGUMENT_FOR_PRIMARY_KEY,
not MISSING_ARGUMENT_FOR_PRIMARY_KEY: the scan of pt_insert.cc lines 153-159
reports the first problematic index, and at each index the missing check
precedes the null check, so a null at a lower index wins over a missing
argument at a higher index. -/
theorem insert_pk_counterexample :
    initArgsNamed
        ⟨fun n => if n = 0 then some ⟨0, 0⟩ else if n = 1 then some ⟨1, 0⟩ else none,
          fun _ _ => true⟩
        (List.replicate 2 none) [0] [⟨false, true, 0, true⟩]
      = Except.ok [some (⟨0, 0⟩, ⟨false, true, 0, true⟩), none] ∧
      insertAnalyze
          ⟨fun n => if n = 0 then some ⟨0, 0⟩ else if n = 1 then some ⟨1, 0⟩ else none,
            fun _ _ => true⟩
          ⟨[⟨0, 0⟩, ⟨1, 0⟩], 2⟩ ⟨some [0], [[⟨false, true, 0, true⟩]], true, true⟩
        = Except.error ErrorCode.nullArgumentForPrimaryKey ∧
      ErrorCode.nullArgumentForPrimaryKey ≠ ErrorCode.missingArgumentForPrimaryKey :=
  ⟨rfl, rfl, by decide⟩

theorem checkPrimaryKeys_ok (k : Nat) (args : List (Option ColumnArg))
    (h : checkPrimaryKeys k args = Except.ok ()) :
    ∀ i, i < k → i < args.length →
      ∃ cd e, args.getD i none = some (cd, e) ∧ e.isNull = false := by
  induction k generalizing args with
  | zero => intro i hi _; omega
  | succ k' ih =>
    cases args with
    | nil => intro i _ hia; simp at hia
    | cons a rest =>
      intro i hik hia
      cases ha : a with
      | none =>
        rw [ha] at h
        simp [checkPrimaryKeys] at h
      | some arg =>
        rcases arg with ⟨cd, e⟩
        rw [ha] at h
        cases hnull : e.isNull with
        | true => simp [checkPrimaryKeys, hnull] at h
        | false =>
          have hrec : checkPrimaryKeys k' rest = Except.ok () := by
            simpa [checkPrimaryKeys, hnull] using h
          cases i with
          | zero => exact ⟨cd, e, by simp, hnull⟩
          | succ i' =>
            rw [List.getD_cons_succ]
            exact ih rest hrec i' (by omega) (by simpa using hia)

theorem initArgsNamed_length (ctx : SemContextM) (names : List Nat) :
    ∀ args exprs args2, initArgsNamed ctx args names exprs = Except.ok args2 →
      args2.length = args.length := by
  induction names with
  | nil =>
    intro args exprs args2 h
    simp only [initArgsNamed] at h
    injection h with h
    rw [← h]
  | cons name names' ih =>
    intro args exprs args2 h
    cases exprs with
    | nil =>
      simp only [initArgsNamed] at h
      injection h with h
      rw [← h]
    | cons e rest =>
      simp only [initArgsNamed] at h
      cases hcd : ctx.getColumnDesc name with
      | none => rw [hcd] at h; exact Except.noConfusion h
      | some cd =>
        rw [hcd] at h
        simp only at h
        by_cases hc1 : e.isBindVar = false ∧ ctx.isConvertible e cd.typeId = false
        · rw [if_pos hc1] at h; exact Except.noConfusion h
        · rw [if_neg hc1] at h
          by_cases hc2 : ((args.getD cd.index none).isSome = true)
          · rw [if_pos hc2] at h; exact Except.noConfusion h
          · rw [if_neg hc2] at h
            have := ih (args.set cd.index (some (cd, e))) rest args2 h
            rwa [List.length_set] at this

theorem initArgsPositional_length (ctx : SemContextM) (cds : List ColumnTag) :
    ∀ args idx exprs args2, initArgsPositional ctx args idx cds exprs = Except.ok args2 →
      args2.length = args.length := by
  induction cds with
  | nil =>
    intro args idx exprs args2 h
    cases exprs with
    | nil =>
      simp only [initArgsPositional] at h
      injection h with h
      rw [← h]
    | cons e rest =>
      simp only [initArgsPositional] at h
      injection h with h
      rw [← h]
  | cons cd cds' ih =>
    intro args idx exprs args2 h
    cases exprs with
    | nil =>
      simp only [initArgsPositional] at h
      injection h with h
      rw [← h]
    | cons e rest =>
      simp only [initArgsPositional] at h
      by_cases hc1 : e.isBindVar = false ∧ ctx.isConvertible e cd.typeId = false
      · rw [if_pos hc1] at h; exact Except.noConfusion h
      · rw [if_neg hc1] at h
        have := ih (args.set idx (some (cd, e))) (idx + 1) rest args2 h
        rwa [List.length_set] at this

theorem insertAnalyze_ok_inv (ctx : SemContextM) (tbl : TableM) (stmt : PTInsertStmtM)
    (args : List (Option ColumnArg)) (h : insertAnalyze ctx tbl stmt = Except.ok args) :
    checkPrimaryKeys tbl.numKeyColumns args = Except.ok () ∧
      args.length = tbl.tableColumns.length := by
  rcases stmt with ⟨cols, tuples, pre, ifu⟩
  cases pre with
  | false => simp [insertAnalyze] at h
  | true =>
    rcases tuples with _ | ⟨exprs, rest⟩
    · simp [insertAnalyze] at h
    · cases hae : analyzeExprs exprs with
      | error e => simp [insertAnalyze, hae] at h
      | ok u =>
        cases u
        rcases cols with _ | names
        · by_cases hne : exprs.length ≠ tbl.tableColumns.length
          · by_cases hlt : tbl.tableColumns.length < exprs.length
            · simp [insertAnalyze, hae, hne, hlt] at h
            · simp [insertAnalyze, hae, hne, hlt] at h
          · cases hinit : initArgsPositional ctx
                (List.replicate tbl.tableColumns.length none) 0 tbl.tableColumns exprs with
            | error e => simp [insertAnalyze, hae, hne, hinit] at h
            | ok args2 =>
              cases hchk : checkPrimaryKeys tbl.numKeyColumns args2 with
              | error e => simp [insertAnalyze, hae, hne, hinit, hchk] at h
              | ok u2 =>
                cases u2
                cases ifu with
                | false => simp [insertAnalyze, hae, hne, hinit, hchk] at h
                | true =>
                  have hargs : args = args2 := by
                    have := h
                    simp [insertAnalyze, hae, hne, hinit, hchk] at this
                    exact this.symm
                  subst hargs
                  refine ⟨hchk, ?_⟩
                  have := initArgsPositional_length ctx tbl.tableColumns _ _ _ _ hinit
                  rwa [List.length_replicate] at this
        · by_cases hne : names.length ≠ exprs.length
          · by_cases hlt : exprs.length < names.length
            · simp [insertAnalyze, hae, hne, hlt] at h
            · simp [insertAnalyze, hae, hne, hlt] at h
          · cases hinit : initArgsNamed ctx
                (List.replicate tbl.tableColumns.length none) names exprs with
            | error e => simp [insertAnalyze, hae, hne, hinit] at h
            | ok args2 =>
              cases hchk : checkPrimaryKeys tbl.numKeyColumns args2 with
              | error e => simp [insertAnalyze, hae, hne, hinit, hchk] at h
              | ok u2 =>
                cases u2
                cases ifu with
                | false => simp [insertAnalyze, hae, hne, hinit, hchk] at h
                | true =>
                  have hargs : args = args2 := by
                    have := h
                    simp [insertAnalyze, hae, hne, hinit, hchk] at this
                    exact this.symm
                  subst hargs
                  refine ⟨hchk, ?_⟩
                  have := initArgsNamed_length ctx names _ _ _ hinit
                  rwa [List.length_replicate] at this

/-- C10 (amended): the primary-key check of `PTInsertStmt::Analyze`
(pt_insert.cc lines 150-160) scans key indexes upward and reports the first
problematic column — MISSING_ARGUMENT_FOR_PRIMARY_KEY when that column has
no associated argument, NULL_ARGUMENT_FOR_PRIMARY_KEY when its argument is
null (so a null at a lower index precedes a missing argument at a higher
one); consequently whenever `Analyze` returns OK, every primary-key column
has a non-null argument. -/
theorem insert_pk_check (ctx : SemContextM) (tbl : TableM) (stmt : PTInsertStmtM)
    (hk : tbl.numKeyColumns ≤ tbl.tableColumns.length) :
    (∀ args, insertAnalyze ctx tbl stmt = Except.ok args →
      ∀ i, i < tbl.numKeyColumns →
        ∃ cd e, args.getD i none = some (cd, e) ∧ e.isNull = false) ∧
    (∀ k args i, i < k → i < args.length →
      (∀ j, j < i → ∃ cd e, args.getD j none = some (cd, e) ∧ e.isNull = false) →
      ((args.getD i none = none →
          checkPrimaryKeys k args = Except.error ErrorCode.missingArgumentForPrimaryKey) ∧
        (∀ cd e, args.getD i none = some (cd, e) → e.isNull = true →
          checkPrimaryKeys k args = Except.error ErrorCode.nullArgumentForPrimaryKey))) := by
  constructor
  · intro args h i hik
    obtain ⟨hchk, hlen⟩ := insertAnalyze_ok_inv ctx tbl stmt args h
    exact checkPrimaryKeys_ok tbl.numKeyColumns args hchk i hik (by omega)
  · intro k args i
    induction i generalizing k args with
    | zero =>
      intro hik hia _
      cases k with
      | zero => omega
      | succ k' =>
        cases args with
        | nil => simp at hia
        | cons a rest =>
          constructor
          · intro h0
            rw [List.getD_cons_zero] at h0
            simp [checkPrimaryKeys, h0]
          · intro cd e h0 hnull
            rw [List.getD_cons_zero] at h0
            simp [checkPrimaryKeys, h0, hnull]
    | succ i' ih =>
      intro hik hia hgood
      cases k with
      | zero => omega
      | succ k' =>
        cases args with
        | nil => simp at hia
        | cons a rest =>
          obtain ⟨cd0, e0, hsome, hnn⟩ := hgood 0 (Nat.succ_pos _)
          rw [List.getD_cons_zero] at hsome
          have hstep := ih k' rest (by omega) (by simpa using hia)
            (fun j hj => by
              have hg := hgood (j + 1) (by omega)
              rw [List.getD_cons_succ] at hg
              exact hg)
          constructor
          · intro h0
            rw [List.getD_cons_succ] at h0
            have hrec := hstep.1 h0
            simp [checkPrimaryKeys, hsome, hnn, hrec]
          · intro cd e h0 hnull
            rw [List.getD_cons_succ] at h0
            have hrec := hstep.2 cd e h0 hnull
            simp [checkPrimaryKeys, hsome, hnn, hrec]

/-- Concrete instance of the amended C10: a complete two-key INSERT passes,
and both primary-key arguments are present and non-null. -/
theorem insert_pk_check_witness :
    (2 : Nat) ≤ 2 ∧
      (∃ cd e,
        ([some (⟨0, 0⟩, ⟨false, false, 0, true⟩),
            some (⟨1, 0⟩, ⟨false, false, 0, true⟩)] :
              List (Option ColumnArg)).getD 1 none = some (cd, e) ∧
          e.isNull = false) :=
  ⟨by decide,
   (insert_pk_check
        ⟨fun n => if n = 0 then some ⟨0, 0⟩ else if n = 1 then some ⟨1, 0⟩ else none,
          fun _ _ => true⟩
        ⟨[⟨0, 0⟩, ⟨1, 0⟩], 2⟩ ⟨none, [[⟨false, false, 0, true⟩, ⟨false, false, 0, true⟩]],
          true, true⟩ (by decide)).1
      [some (⟨0, 0⟩, ⟨false, false, 0, true⟩), some (⟨1, 0⟩, ⟨false, false, 0, true⟩)]
      rfl 1 (by decide)⟩

end YbSql
